import Mathlib

/-!
The tool `affected`: change-impact closure over a Go import graph.

A shallow embedding of `src/main.go` and the properties of its closure loop,
its seed construction, its package scan and its ignore filter.

Modelling conventions

* A Go `string` is a Lean `String`; `strings.Contains` is the substring test on
  the character sequences.
* The package-level variable `ignoreDirs` is passed explicitly.
* The Go map `imports` (`map[string][]string`) is a finite association list in
  which the first binding of a key is the live one; reading a missing key
  gives the empty (nil) slice, as in Go.
* The `for addedMore { ... }` loop is a function with a fuel argument counting
  the rounds it may still run; `none` means the fuel ran out.  Termination is
  proved by exhibiting enough fuel.
* The external collaborators (`flag`, `os`, `git`, `go/build`, `buildutil`) are
  fields of a `World` record; `main` is a function from a `World` to the
  `Outcome` of the process (standard output, standard error, exit code).
-/

namespace Affected

/-! ## Strings -/

/-- Whether `p` is a prefix of `s`, character by character. -/
def hasPrefix : List Char → List Char → Bool
  | _, [] => true
  | [], _ :: _ => false
  | c :: s, d :: p => c == d && hasPrefix s p

/-- Whether `sub` occurs in `s` starting at some position. -/
def containsAt : List Char → List Char → Bool
  | [], sub => hasPrefix [] sub
  | c :: s, sub => hasPrefix (c :: s) sub || containsAt s sub

/-- Go `strings.Contains(s, substr)`: reports whether `substr` is within `s`. -/
def stringsContains (s substr : String) : Bool :=
  containsAt s.data substr.data

/-- Splitting a character sequence at every occurrence of `sep`; the pieces
are returned in order and there is always at least one piece. -/
def splitChars (sep : Char) : List Char → List (List Char)
  | [] => [[]]
  | c :: cs =>
    if c = sep then [] :: splitChars sep cs
    else
      match splitChars sep cs with
      | [] => [[c]]
      | w :: ws => (c :: w) :: ws

/-- Go `strings.Split(s, sep)` for a one-character separator. -/
def stringsSplit (s : String) (sep : Char) : List String :=
  (splitChars sep s.data).map String.mk

/-- Go `strings.Join(elems, sep)`. -/
def stringsJoin (elems : List String) (sep : String) : String :=
  sep.intercalate elems

/-! ## The ignore filter (`main.go` lines 148-155) -/

/-- The function `isIgnored`: the first pattern of `ignoreDirs` contained in
`f` makes the answer `true`; with no such pattern the answer is `false`. -/
def isIgnored (ignoreDirs : List String) (f : String) : Bool :=
  match ignoreDirs with
  | [] => false
  | d :: ds => if stringsContains f d then true else isIgnored ds f

/-! ## The map `imports` -/

/-- The Go type `map[string][]string`. -/
abbrev ImportsMap := List (String × List String)

/-- The read `imports[k]`: the slice bound to `k`, or the nil slice. -/
def ImportsMap.get : ImportsMap → String → List String
  | [], _ => []
  | (k', v) :: rest, k => if k' = k then v else ImportsMap.get rest k

/-- The write `imports[k] = v`. -/
def ImportsMap.set : ImportsMap → String → List String → ImportsMap
  | [], k, v => [(k, v)]
  | (k', v') :: rest, k, v =>
    if k' = k then (k, v) :: rest else (k', v') :: ImportsMap.set rest k v

/-! ## The closure loop (`main.go` lines 101-138) -/

/-- Lines 115-127: the two linear searches for `imp`, first through
`affectedPackages`, then through `newAdditions`. -/
def found (affectedPackages newAdditions : List String) (imp : String) : Bool :=
  affectedPackages.any (fun p => imp == p) || newAdditions.any (fun p => imp == p)

/-- Lines 111-133: the loop `for _, imp := range imports[p]`, run over the
slice `imps` with the staged additions `newAdditions`. -/
def scanImporters (ignoreDirs : List String) (affectedPackages : List String) :
    List String → List String → List String
  | [], newAdditions => newAdditions
  | imp :: rest, newAdditions =>
    if isIgnored ignoreDirs imp then
      scanImporters ignoreDirs affectedPackages rest newAdditions
    else if found affectedPackages newAdditions imp then
      scanImporters ignoreDirs affectedPackages rest newAdditions
    else
      scanImporters ignoreDirs affectedPackages rest (newAdditions ++ [imp])

/-- Lines 110-134: the loop `for _, p := range affectedPackages`, run over the
remaining members `ps`; `affectedPackages` itself is not changed by it. -/
def scanMembers (ignoreDirs : List String) (imports : ImportsMap)
    (affectedPackages : List String) : List String → List String → List String
  | [], newAdditions => newAdditions
  | p :: ps, newAdditions =>
    scanMembers ignoreDirs imports affectedPackages ps
      (scanImporters ignoreDirs affectedPackages (imports.get p) newAdditions)

/-- Lines 109-134: the additions staged by one round. -/
def round (ignoreDirs : List String) (imports : ImportsMap)
    (affectedPackages : List String) : List String :=
  scanMembers ignoreDirs imports affectedPackages affectedPackages []

/-- Lines 106-138: the loop `for addedMore { ... }`.  Each unit of fuel pays
for one round; the value is the final `affectedPackages`. -/
def closureLoop (ignoreDirs : List String) (imports : ImportsMap) :
    Nat → List String → Option (List String)
  | 0, _ => none
  | fuel + 1, affectedPackages =>
    let newAdditions := round ignoreDirs imports affectedPackages
    let addedMore := decide (newAdditions.length > 0)
    let affectedPackages := affectedPackages ++ newAdditions
    if addedMore then closureLoop ignoreDirs imports fuel affectedPackages
    else some affectedPackages

/-! ## The driver (`main.go` lines 17-146) -/

/-- The fields of `build.Package` that `main` reads. -/
structure Package where
  ImportPath : String
  Goroot : Bool
  Imports : List String
deriving DecidableEq

/-- The error of `buildContext.Import`: a `*build.NoGoError` or any other
error, each with its message. -/
inductive ImportError where
  | noGo (msg : String)
  | other (msg : String)
deriving DecidableEq

/-- What the process has done when it ends. -/
structure Outcome where
  stdout : String
  stderr : String
  exitCode : Nat
deriving DecidableEq

/-- The collaborators of `main`.  An `Except String` value carries the message
of the Go error when the call fails. -/
structure World where
  /-- Value of the flag `-ignore-dirs` after `flag.Parse()`. -/
  ignoreDirsFlag : String
  /-- Value of `flag.Args()`. -/
  args : List String
  /-- Value of `os.Args[0]`. -/
  arg0 : String
  /-- Trimmed output of `git rev-parse --show-toplevel`. -/
  gitRevParse : Except String String
  /-- From the root and the commit range, the non-blank lines of
  `git diff --name-only`, each joined to the root. -/
  gitDiff : String → String → Except String (List String)
  /-- Result of `os.Getwd()`. -/
  getwd : Except String String
  /-- From the working directory and a file, the result of
  `buildutil.ContainingPackage`. -/
  containingPackage : String → String → Except String Package
  /-- The calls `buildutil.ForEachPackage` makes to its callback, in order:
  the import path and the error, if any. -/
  forEachPackage : List (String × Option String)
  /-- From an import path and the source directory, the result of
  `buildContext.Import` with `build.AllowBinary`. -/
  importPackage : String → String → Except ImportError Package

/-- The function `die` (lines 143-146): the message goes to standard error and
the process exits with code 1. -/
def die (stdout stderr msg : String) : Outcome :=
  { stdout := stdout, stderr := stderr ++ msg, exitCode := 1 }

/-- The function `gitRoot` (lines 157-164). -/
def gitRoot (w : World) (stdout stderr : String) : Except Outcome String :=
  match w.gitRevParse with
  | .error err => .error (die stdout stderr ("Could not find git root: " ++ err))
  | .ok dat => .ok dat

/-- The function `changedFiles` (lines 166-184). -/
def changedFiles (w : World) (stdout stderr : String) (commitRange : String) :
    Except Outcome (List String) :=
  match gitRoot w stdout stderr with
  | .error out => .error out
  | .ok root =>
    match w.gitDiff root commitRange with
    | .error err => .error (die stdout stderr ("Could not run git diff-tree: " ++ err))
    | .ok res => .ok res

/-- Lines 20-22: the pattern list set from the flag value. -/
def parseIgnoreDirs (d : String) : List String :=
  if d.length > 0 then stringsSplit d ',' else []

/-- The variables of the loop over the changed files. -/
structure SeedState where
  pkgSeen : List String
  modifiedPackages : List Package
  stderr : String
deriving DecidableEq

/-- Lines 43-62: the body of `for _, f := range files`. -/
def seedStep (ignoreDirs : List String) (w : World) (cwd : String)
    (st : SeedState) (f : String) : SeedState :=
  if isIgnored ignoreDirs f then st
  else
    match w.containingPackage cwd f with
    | .error err =>
      { st with stderr := st.stderr ++ "Error finding package for file " ++ f ++ ": " ++ err ++ "\n" }
    | .ok pkg =>
      if pkg.Goroot then
        { st with stderr := st.stderr ++ "Ignoring STDLIB file " ++ f ++ "\n" }
      else if st.pkgSeen.contains pkg.ImportPath then st
      else
        { st with
          pkgSeen := pkg.ImportPath :: st.pkgSeen
          modifiedPackages := st.modifiedPackages ++ [pkg] }

/-- Lines 39-63: the loop over the changed files. -/
def seedLoop (ignoreDirs : List String) (w : World) (cwd : String)
    (files : List String) (stderr : String) : SeedState :=
  files.foldl (seedStep ignoreDirs w cwd)
    { pkgSeen := [], modifiedPackages := [], stderr := stderr }

/-- Lines 102-105: the import paths of `modifiedPackages`. -/
def seedPaths (modifiedPackages : List Package) : List String :=
  modifiedPackages.map (fun p => p.ImportPath)

/-- The variables the scan callback writes. -/
structure ScanState where
  imports : ImportsMap
  scanErr : Option String
  stderr : String
deriving DecidableEq

/-- Lines 92-94: `imports[imp] = append(imports[imp], importPath)` for each
entry `imp` of the import list of the package. -/
def addImports (imports : ImportsMap) (importPath : String) :
    List String → ImportsMap
  | [] => imports
  | imp :: rest =>
    addImports (imports.set imp (imports.get imp ++ [importPath])) importPath rest

/-- Lines 71-96: the callback handed to `buildutil.ForEachPackage`. -/
def scanStep (ignoreDirs : List String) (w : World) (repo : String)
    (st : ScanState) (call : String × Option String) : ScanState :=
  match call.2 with
  | some err =>
    { st with
      stderr := st.stderr ++ "Could not read package " ++ call.1 ++ ": " ++ err ++ "\n"
      scanErr := some err }
  | none =>
    if isIgnored ignoreDirs call.1 then st
    else
      match w.importPackage call.1 repo with
      | .error (.noGo _) => st
      | .error (.other err) =>
        { st with
          stderr := st.stderr ++ "Could not import dir " ++ call.1 ++ ": " ++ err ++ "\n"
          scanErr := some err }
      | .ok pkg => { st with imports := addImports st.imports call.1 pkg.Imports }

/-- Lines 67-96: the whole scan. -/
def scanLoop (ignoreDirs : List String) (w : World) (repo : String)
    (stderr : String) : ScanState :=
  w.forEachPackage.foldl (scanStep ignoreDirs w repo)
    { imports := [], scanErr := none, stderr := stderr }

/-- Lines 17-138 of `main`: everything up to the final print.  The value is
either the outcome of a call to `die`, or the final `affectedPackages` with
what standard error holds by then.  The fuel is that of the closure loop;
every exit before that loop is reached whatever the fuel. -/
def affectedPackages (w : World) (fuel : Nat) :
    Option (Except Outcome (List String × String)) :=
  let ignoreDirs := parseIgnoreDirs w.ignoreDirsFlag
  match w.args with
  | [commitRange] =>
    match changedFiles w "" "" commitRange with
    | .error out => some (.error out)
    | .ok files =>
      match w.getwd with
      | .error err => some (.error (die "" "" ("Could not get CWD: " ++ err)))
      | .ok cwd =>
        match gitRoot w "" "" with
        | .error out => some (.error out)
        | .ok repo =>
          let seeds := seedLoop ignoreDirs w cwd files ""
          let scan := scanLoop ignoreDirs w repo seeds.stderr
          match scan.scanErr with
          | some _ =>
            some (.error (die "" scan.stderr "Package scan incomplete, aborting"))
          | none =>
            match closureLoop ignoreDirs scan.imports fuel
                (seedPaths seeds.modifiedPackages) with
            | none => none
            | some affected => some (.ok (affected, scan.stderr))
  | _ => some (.error (die "" "" ("Usage: " ++ w.arg0 ++ " commit..commit\n")))

/-- The function `main` (lines 17-141): the computation above, then line 140,
`fmt.Println(strings.Join(affectedPackages, "\n"))`, and a normal return. -/
def main (w : World) (fuel : Nat) : Option Outcome :=
  match affectedPackages w fuel with
  | none => none
  | some (.error out) => some out
  | some (.ok (affected, stderr)) =>
    some { stdout := stringsJoin affected "\n" ++ "\n", stderr := stderr, exitCode := 0 }

/-! ## Notions used by the statements -/

/-- Every import path stored as a value of the map. -/
def importers (imports : ImportsMap) : List String :=
  match imports with
  | [] => []
  | (_, v) :: rest => v ++ importers rest

/-- Rounds that always suffice: one per stored importer, and the last one. -/
def enoughRounds (imports : ImportsMap) : Nat :=
  (importers imports).length + 1

/-- An edge of the propagation: `q` is listed in the index entry of `p` and
matches no ignore pattern. -/
def ImporterEdge (ignoreDirs : List String) (imports : ImportsMap) (p q : String) : Prop :=
  q ∈ imports.get p ∧ isIgnored ignoreDirs q = false

/-- What every run of the loop keeps true of `affectedPackages`. -/
def LoopInv (ignoreDirs : List String) (imports : ImportsMap) (seeds aff : List String) :
    Prop :=
  seeds <+: aff ∧
  (∀ q ∈ aff, ∃ p0 ∈ seeds, Relation.ReflTransGen (ImporterEdge ignoreDirs imports) p0 q) ∧
  (seeds.Nodup → aff.Nodup) ∧
  ((∀ s ∈ seeds, isIgnored ignoreDirs s = false) → ∀ q ∈ aff, isIgnored ignoreDirs q = false)

/-! ## Concrete runs -/

/-- A run in which the one changed file sits behind a symbolic link into a
checkout-staging directory: the file path shows no pattern, the import path
of the unit that owns it does. -/
def linkedWorld : World :=
  { ignoreDirsFlag := ".checkout_git"
    args := ["HEAD~1..HEAD"]
    arg0 := "affected"
    gitRevParse := .ok "/work"
    gitDiff := fun _ _ => .ok ["/work/link/x.go"]
    getwd := .ok "/work"
    containingPackage := fun _ f =>
      if f = "/work/link/x.go" then
        .ok { ImportPath := "proj/.checkout_git/dep", Goroot := false, Imports := [] }
      else .error "can't find package"
    forEachPackage := []
    importPackage := fun _ _ => .error (.noGo "no buildable Go source files") }

/-- A run in which the one changed file belongs to the standard library. -/
def stdlibWorld : World :=
  { ignoreDirsFlag := ".checkout_git"
    args := ["HEAD~1..HEAD"]
    arg0 := "affected"
    gitRevParse := .ok "/go"
    gitDiff := fun _ _ => .ok ["/go/src/fmt/print.go"]
    getwd := .ok "/go"
    containingPackage := fun _ _ =>
      .ok { ImportPath := "fmt", Goroot := true, Imports := ["os"] }
    forEachPackage := [("proj/a", none)]
    importPackage := fun _ _ =>
      .ok { ImportPath := "proj/a", Goroot := false, Imports := ["fmt"] } }

/-- A run in which the scan reads `proj/a`, fails to read `proj/b`, and the one
changed file belongs to `proj/a`. -/
def brokenScanWorld : World :=
  { ignoreDirsFlag := ".checkout_git"
    args := ["HEAD~1..HEAD"]
    arg0 := "affected"
    gitRevParse := .ok "/work"
    gitDiff := fun _ _ => .ok ["/work/src/proj/a/a.go"]
    getwd := .ok "/work"
    containingPackage := fun _ _ =>
      .ok { ImportPath := "proj/a", Goroot := false, Imports := [] }
    forEachPackage := [("proj/a", none), ("proj/b", some "permission denied")]
    importPackage := fun _ _ =>
      .ok { ImportPath := "proj/a", Goroot := false, Imports := [] } }

/-- A run with five changed files: one under a checkout-staging directory, one
of the standard library, one outside every source root, and two of `proj/a`. -/
def mixedWorld : World :=
  { ignoreDirsFlag := ".checkout_git"
    args := ["HEAD~1..HEAD"]
    arg0 := "affected"
    gitRevParse := .ok "/work"
    gitDiff := fun _ _ =>
      .ok ["/work/.checkout_git/x.go", "/go/src/fmt/print.go", "/tmp/y.go",
        "/work/src/proj/a/a.go", "/work/src/proj/a/b.go"]
    getwd := .ok "/work"
    containingPackage := fun _ f =>
      if f = "/go/src/fmt/print.go" then
        .ok { ImportPath := "fmt", Goroot := true, Imports := [] }
      else if f = "/tmp/y.go" then .error "can't find package containing /tmp/y.go"
      else .ok { ImportPath := "proj/a", Goroot := false, Imports := ["fmt"] }
    forEachPackage := [("proj/a", none), ("proj/b", none)]
    importPackage := fun p _ =>
      if p = "proj/b" then
        .ok { ImportPath := "proj/b", Goroot := false, Imports := ["proj/a", "fmt"] }
      else .ok { ImportPath := "proj/a", Goroot := false, Imports := ["fmt"] } }

/-! ## Notions used by the statements on the index, the rounds and the seeds -/

/-- The import list `buildContext.Import` reports for a unit; empty when the
call fails. -/
def importList (w : World) (repo p : String) : List String :=
  match w.importPackage p repo with
  | .ok pkg => pkg.Imports
  | .error _ => []

/-- What one call of the scan callback appends to the index entry of `I`. -/
def contribution (ignoreDirs : List String) (w : World) (repo I : String)
    (call : String × Option String) : List String :=
  match call.2 with
  | some _ => []
  | none =>
    if isIgnored ignoreDirs call.1 then []
    else List.replicate ((importList w repo call.1).count I) call.1

/-- Lines 111-133 with the test of lines 112-114 removed. -/
def scanImportersNoTest (affectedPackages : List String) :
    List String → List String → List String
  | [], newAdditions => newAdditions
  | imp :: rest, newAdditions =>
    if found affectedPackages newAdditions imp then
      scanImportersNoTest affectedPackages rest newAdditions
    else
      scanImportersNoTest affectedPackages rest (newAdditions ++ [imp])

/-- Lines 110-134 with the test of lines 112-114 removed. -/
def scanMembersNoTest (imports : ImportsMap) (affectedPackages : List String) :
    List String → List String → List String
  | [], newAdditions => newAdditions
  | p :: ps, newAdditions =>
    scanMembersNoTest imports affectedPackages ps
      (scanImportersNoTest affectedPackages (imports.get p) newAdditions)

/-- One round with the test of lines 112-114 removed. -/
def roundNoTest (imports : ImportsMap) (affectedPackages : List String) : List String :=
  scanMembersNoTest imports affectedPackages affectedPackages []

/-- The closure loop with the test of lines 112-114 removed. -/
def closureLoopNoTest (imports : ImportsMap) : Nat → List String → Option (List String)
  | 0, _ => none
  | fuel + 1, affectedPackages =>
    let newAdditions := roundNoTest imports affectedPackages
    let addedMore := decide (newAdditions.length > 0)
    let affectedPackages := affectedPackages ++ newAdditions
    if addedMore then closureLoopNoTest imports fuel affectedPackages
    else some affectedPackages

/-- A scan of three units: `proj/a`, a unit under a checkout-staging directory
that imports `proj/a`, and `proj/b`, which imports `proj/a` too. -/
def stagedWorld : World :=
  { ignoreDirsFlag := ".checkout_git"
    args := ["HEAD~1..HEAD"]
    arg0 := "affected"
    gitRevParse := .ok "/work"
    gitDiff := fun _ _ => .ok ["/work/src/proj/a/a.go"]
    getwd := .ok "/work"
    containingPackage := fun _ _ =>
      .ok { ImportPath := "proj/a", Goroot := false, Imports := ["fmt"] }
    forEachPackage :=
      [("proj/a", none), ("proj/.checkout_git/dep", none), ("proj/b", none)]
    importPackage := fun p _ =>
      if p = "proj/a" then
        .ok { ImportPath := "proj/a", Goroot := false, Imports := ["fmt"] }
      else if p = "proj/b" then
        .ok { ImportPath := "proj/b", Goroot := false, Imports := ["fmt", "proj/a"] }
      else
        .ok { ImportPath := "proj/.checkout_git/dep", Goroot := false, Imports := ["proj/a"] } }

/-- A scan of three units, the second of which has no Go source files. -/
def noGoWorld : World :=
  { ignoreDirsFlag := ".checkout_git"
    args := ["HEAD~1..HEAD"]
    arg0 := "affected"
    gitRevParse := .ok "/work"
    gitDiff := fun _ _ => .ok ["/work/src/proj/a/a.go"]
    getwd := .ok "/work"
    containingPackage := fun _ _ =>
      .ok { ImportPath := "proj/a", Goroot := false, Imports := ["fmt"] }
    forEachPackage := [("proj/a", none), ("proj/docs", none), ("proj/b", none)]
    importPackage := fun p _ =>
      if p = "proj/a" then
        .ok { ImportPath := "proj/a", Goroot := false, Imports := ["fmt"] }
      else if p = "proj/b" then
        .ok { ImportPath := "proj/b", Goroot := false, Imports := ["fmt", "proj/a"] }
      else .error (.noGo "no buildable Go source files in /work/src/proj/docs") }

/-- Keeping only the first occurrence of each element, in order. -/
def keepFirst : List String → List String
  | [] => []
  | x :: xs => x :: (keepFirst xs).filter (fun y => y != x)

/-- The index entries of the members of `aff`, one after the other, without
the import paths that match an ignore pattern or are in `aff` already. -/
def roundCandidates (ignoreDirs : List String) (imports : ImportsMap) (aff : List String) :
    List String :=
  ((aff.map imports.get).flatten).filter
    (fun q => !isIgnored ignoreDirs q && decide (q ∉ aff))

/-- The import path a changed file contributes to the seeds, if any: the file
is not ignored, resolves, and resolves to a unit that is not standard. -/
def seedCandidate (ignoreDirs : List String) (w : World) (cwd f : String) : Option String :=
  if isIgnored ignoreDirs f then none
  else
    match w.containingPackage cwd f with
    | .error _ => none
    | .ok pkg => if pkg.Goroot then none else some pkg.ImportPath

/-- The value of `affectedPackages` after `k` more rounds of the loop body,
from the value `aff`. -/
def affectedAfter (ignoreDirs : List String) (imports : ImportsMap) :
    Nat → List String → List String
  | 0, aff => aff
  | k + 1, aff => affectedAfter ignoreDirs imports k (aff ++ round ignoreDirs imports aff)

/-- There is a chain of exactly `n` importer edges from some seed to `q`, no
unit after the seed matching an ignore pattern. -/
def ChainOfLength (ignoreDirs : List String) (imports : ImportsMap) (seeds : List String)
    (n : Nat) (q : String) : Prop :=
  ∃ p0 ∈ seeds, ∃ ps,
    List.Chain (fun p p' => p' ∈ imports.get p ∧ isIgnored ignoreDirs p' = false) p0 ps ∧
    ps.length = n ∧ (p0 :: ps).getLast? = some q

/-- The shortest chain of importer edges from a seed to `q` has length `k`. -/
def ShortestChain (ignoreDirs : List String) (imports : ImportsMap) (seeds : List String)
    (k : Nat) (q : String) : Prop :=
  ChainOfLength ignoreDirs imports seeds k q ∧
  ∀ j, j < k → ¬ ChainOfLength ignoreDirs imports seeds j q

/-! ## The scenarios of the specification, by evaluation -/

theorem scenario_A :
    closureLoop [] [("a", ["b"]), ("b", ["c"])] 3 ["a"] = some ["a", "b", "c"] := by
  decide

theorem scenario_A_two_rounds_do_not_suffice :
    closureLoop [] [("a", ["b"]), ("b", ["c"])] 2 ["a"] = none := by
  decide

theorem scenario_B :
    closureLoop [] [("a", ["b"]), ("b", ["c"])] 1 ["c"] = some ["c"] := by
  decide

theorem scenario_C :
    closureLoop ["d"] [("a", ["d"]), ("d", ["e"])] 1 ["a"] = some ["a"] := by
  decide

theorem linkedWorld_run :
    main linkedWorld 1 =
      some { stdout := "proj/.checkout_git/dep\n", stderr := "", exitCode := 0 } := by
  decide

theorem mixedWorld_run :
    main mixedWorld 2 =
      some { stdout := "proj/a\nproj/b\n"
             stderr := "Ignoring STDLIB file /go/src/fmt/print.go\nError finding package for file /tmp/y.go: can't find package containing /tmp/y.go\n"
             exitCode := 0 } := by
  decide

theorem brokenScanWorld_run :
    main brokenScanWorld 0 =
      some { stdout := ""
             stderr := "Could not read package proj/b: permission denied\nPackage scan incomplete, aborting"
             exitCode := 1 } := by
  decide

/-! ## Substrings -/

theorem hasPrefix_iff (s p : List Char) : hasPrefix s p = true ↔ p <+: s := by
  induction s generalizing p with
  | nil =>
    cases p with
    | nil => simp [hasPrefix]
    | cons d p => simp [hasPrefix]
  | cons c s ih =>
    cases p with
    | nil => simp [hasPrefix]
    | cons d p =>
      simp only [hasPrefix, Bool.and_eq_true, beq_iff_eq, ih, List.cons_prefix_cons]
      constructor
      · rintro ⟨h, h2⟩
        exact ⟨h.symm, h2⟩
      · rintro ⟨h, h2⟩
        exact ⟨h.symm, h2⟩

theorem containsAt_iff (s sub : List Char) : containsAt s sub = true ↔ sub <:+: s := by
  induction s with
  | nil =>
    simp only [containsAt, hasPrefix_iff, List.prefix_nil, List.infix_nil]
  | cons c s ih =>
    simp only [containsAt, Bool.or_eq_true, hasPrefix_iff, ih, List.infix_cons_iff]

theorem stringsContains_iff (s substr : String) :
    stringsContains s substr = true ↔ ∃ pre post : String, s = pre ++ substr ++ post := by
  unfold stringsContains
  rw [containsAt_iff]
  constructor
  · rintro ⟨a, b, h⟩
    refine ⟨String.mk a, String.mk b, ?_⟩
    apply String.ext
    simp [String.data_append, h]
  · rintro ⟨pre, post, h⟩
    refine ⟨pre.data, post.data, ?_⟩
    rw [h]
    simp [String.data_append]

theorem isIgnored_iff (ignoreDirs : List String) (f : String) :
    isIgnored ignoreDirs f = true ↔ ∃ d ∈ ignoreDirs, stringsContains f d = true := by
  induction ignoreDirs with
  | nil => simp [isIgnored]
  | cons d ds ih =>
    simp only [isIgnored, List.mem_cons, exists_eq_or_imp]
    by_cases h : stringsContains f d = true
    · simp [h]
    · simp [h, ih]

/-! ## One round of the closure loop -/

theorem found_iff (affectedPackages newAdditions : List String) (imp : String) :
    found affectedPackages newAdditions imp = true ↔
      imp ∈ affectedPackages ∨ imp ∈ newAdditions := by
  unfold found
  rw [Bool.or_eq_true, List.any_eq_true, List.any_eq_true]
  constructor
  · rintro (⟨p, hp, h⟩ | ⟨p, hp, h⟩)
    · exact Or.inl ((beq_iff_eq.1 h) ▸ hp)
    · exact Or.inr ((beq_iff_eq.1 h) ▸ hp)
  · rintro (h | h)
    · exact Or.inl ⟨imp, h, beq_self_eq_true imp⟩
    · exact Or.inr ⟨imp, h, beq_self_eq_true imp⟩

theorem found_eq_false_iff (affectedPackages newAdditions : List String) (imp : String) :
    found affectedPackages newAdditions imp = false ↔
      imp ∉ affectedPackages ∧ imp ∉ newAdditions := by
  rw [← Bool.not_eq_true, found_iff, not_or]

theorem mem_scanImporters (ignoreDirs aff : List String) (imps na : List String) (x : String) :
    x ∈ scanImporters ignoreDirs aff imps na ↔
      x ∈ na ∨ (x ∈ imps ∧ isIgnored ignoreDirs x = false ∧ x ∉ aff) := by
  induction imps generalizing na with
  | nil => simp [scanImporters]
  | cons imp rest ih =>
    unfold scanImporters
    by_cases hi : isIgnored ignoreDirs imp = true
    · rw [if_pos hi, ih]
      constructor
      · rintro (h | ⟨h1, h2, h3⟩)
        · exact Or.inl h
        · exact Or.inr ⟨List.mem_cons_of_mem _ h1, h2, h3⟩
      · rintro (h | ⟨h1, h2, h3⟩)
        · exact Or.inl h
        · rcases List.mem_cons.1 h1 with rfl | h1
          · rw [hi] at h2; cases h2
          · exact Or.inr ⟨h1, h2, h3⟩
    · rw [if_neg hi]
      by_cases hf : found aff na imp = true
      · rw [if_pos hf, ih]
        constructor
        · rintro (h | ⟨h1, h2, h3⟩)
          · exact Or.inl h
          · exact Or.inr ⟨List.mem_cons_of_mem _ h1, h2, h3⟩
        · rintro (h | ⟨h1, h2, h3⟩)
          · exact Or.inl h
          · rcases List.mem_cons.1 h1 with rfl | h1
            · rcases (found_iff _ _ _).1 hf with h | h
              · exact absurd h h3
              · exact Or.inl h
            · exact Or.inr ⟨h1, h2, h3⟩
      · rw [if_neg hf, ih]
        have hf2 := (found_eq_false_iff _ _ _).1 (by simpa using hf)
        constructor
        · rintro (h | ⟨h1, h2, h3⟩)
          · rcases List.mem_append.1 h with h | h
            · exact Or.inl h
            · have : x = imp := by simpa using h
              subst this
              exact Or.inr ⟨List.mem_cons_self _ _, by simpa using hi, hf2.1⟩
          · exact Or.inr ⟨List.mem_cons_of_mem _ h1, h2, h3⟩
        · rintro (h | ⟨h1, h2, h3⟩)
          · exact Or.inl (List.mem_append_left _ h)
          · rcases List.mem_cons.1 h1 with rfl | h1
            · exact Or.inl (by simp)
            · exact Or.inr ⟨h1, h2, h3⟩

theorem scanImporters_extends (ignoreDirs aff : List String) (imps na : List String) :
    na <+: scanImporters ignoreDirs aff imps na := by
  induction imps generalizing na with
  | nil => simp [scanImporters]
  | cons imp rest ih =>
    unfold scanImporters
    split
    · exact ih na
    · split
      · exact ih na
      · exact (List.prefix_append na [imp]).trans (ih _)

theorem scanImporters_nodup (ignoreDirs aff : List String) (imps na : List String)
    (h : na.Nodup) : (scanImporters ignoreDirs aff imps na).Nodup := by
  induction imps generalizing na with
  | nil => simpa [scanImporters] using h
  | cons imp rest ih =>
    unfold scanImporters
    split
    · exact ih na h
    · split
      · exact ih na h
      · rename_i hf
        have hf2 := (found_eq_false_iff _ _ _).1 (by simpa using hf)
        apply ih
        rw [List.nodup_append]
        refine ⟨h, List.nodup_singleton _, ?_⟩
        intro a ha hb
        have : a = imp := by simpa using hb
        subst this
        exact hf2.2 ha

theorem mem_scanMembers (ignoreDirs : List String) (imports : ImportsMap)
    (aff ps na : List String) (x : String) :
    x ∈ scanMembers ignoreDirs imports aff ps na ↔
      x ∈ na ∨ ((∃ p ∈ ps, x ∈ imports.get p) ∧ isIgnored ignoreDirs x = false ∧ x ∉ aff) := by
  induction ps generalizing na with
  | nil => simp [scanMembers]
  | cons p ps ih =>
    unfold scanMembers
    rw [ih, mem_scanImporters]
    constructor
    · rintro ((h | ⟨h1, h2, h3⟩) | ⟨⟨q, hq, hx⟩, h2, h3⟩)
      · exact Or.inl h
      · exact Or.inr ⟨⟨p, List.mem_cons_self _ _, h1⟩, h2, h3⟩
      · exact Or.inr ⟨⟨q, List.mem_cons_of_mem _ hq, hx⟩, h2, h3⟩
    · rintro (h | ⟨⟨q, hq, hx⟩, h2, h3⟩)
      · exact Or.inl (Or.inl h)
      · rcases List.mem_cons.1 hq with rfl | hq
        · exact Or.inl (Or.inr ⟨hx, h2, h3⟩)
        · exact Or.inr ⟨⟨q, hq, hx⟩, h2, h3⟩

theorem scanMembers_nodup (ignoreDirs : List String) (imports : ImportsMap)
    (aff ps na : List String) (h : na.Nodup) :
    (scanMembers ignoreDirs imports aff ps na).Nodup := by
  induction ps generalizing na with
  | nil => simpa [scanMembers] using h
  | cons p ps ih =>
    unfold scanMembers
    exact ih _ (scanImporters_nodup _ _ _ _ h)

theorem mem_round (ignoreDirs : List String) (imports : ImportsMap)
    (aff : List String) (x : String) :
    x ∈ round ignoreDirs imports aff ↔
      (∃ p ∈ aff, x ∈ imports.get p) ∧ isIgnored ignoreDirs x = false ∧ x ∉ aff := by
  simp [round, mem_scanMembers]

theorem round_nodup (ignoreDirs : List String) (imports : ImportsMap) (aff : List String) :
    (round ignoreDirs imports aff).Nodup :=
  scanMembers_nodup _ _ _ _ _ List.nodup_nil

theorem round_eq_nil_iff (ignoreDirs : List String) (imports : ImportsMap)
    (aff : List String) :
    round ignoreDirs imports aff = [] ↔
      ∀ p ∈ aff, ∀ x ∈ imports.get p, isIgnored ignoreDirs x = false → x ∈ aff := by
  rw [List.eq_nil_iff_forall_not_mem]
  constructor
  · intro h p hp x hx hi
    by_contra hxa
    exact h x ((mem_round _ _ _ _).2 ⟨⟨p, hp, hx⟩, hi, hxa⟩)
  · intro h x hx
    obtain ⟨⟨p, hp, hxp⟩, hi, hxa⟩ := (mem_round _ _ _ _).1 hx
    exact hxa (h p hp x hxp hi)

/-! ## The loop as a whole -/

theorem closureLoop_succ (ignoreDirs : List String) (imports : ImportsMap)
    (fuel : Nat) (aff : List String) :
    closureLoop ignoreDirs imports (fuel + 1) aff =
      if round ignoreDirs imports aff = [] then some aff
      else closureLoop ignoreDirs imports fuel (aff ++ round ignoreDirs imports aff) := by
  rw [closureLoop]
  by_cases h : round ignoreDirs imports aff = []
  · simp [h]
  · have hl : 0 < (round ignoreDirs imports aff).length := List.length_pos.2 h
    simp [h, hl]

theorem closureLoop_fixed (ignoreDirs : List String) (imports : ImportsMap)
    (fuel : Nat) (aff : List String) (h : round ignoreDirs imports aff = []) :
    closureLoop ignoreDirs imports (fuel + 1) aff = some aff := by
  rw [closureLoop_succ, if_pos h]

theorem closureLoop_invariant (ignoreDirs : List String) (imports : ImportsMap)
    (Inv : List String → Prop)
    (hstep : ∀ a, Inv a → Inv (a ++ round ignoreDirs imports a)) :
    ∀ (fuel : Nat) (aff r : List String), Inv aff →
      closureLoop ignoreDirs imports fuel aff = some r →
      Inv r ∧ round ignoreDirs imports r = [] := by
  intro fuel
  induction fuel with
  | zero => intro aff r _ h; simp [closureLoop] at h
  | succ n ih =>
    intro aff r hinv h
    rw [closureLoop_succ] at h
    by_cases hr : round ignoreDirs imports aff = []
    · rw [if_pos hr] at h
      cases h
      exact ⟨hinv, hr⟩
    · rw [if_neg hr] at h
      exact ih _ _ (hstep _ hinv) h

theorem closureLoop_mono (ignoreDirs : List String) (imports : ImportsMap) :
    ∀ (fuel : Nat) (aff r : List String),
      closureLoop ignoreDirs imports fuel aff = some r →
      ∀ fuel2, fuel ≤ fuel2 → closureLoop ignoreDirs imports fuel2 aff = some r := by
  intro fuel
  induction fuel with
  | zero => intro aff r h; simp [closureLoop] at h
  | succ n ih =>
    intro aff r h fuel2 hle
    obtain ⟨m, rfl⟩ : ∃ m, fuel2 = m + 1 := ⟨fuel2 - 1, by omega⟩
    rw [closureLoop_succ] at h ⊢
    by_cases hr : round ignoreDirs imports aff = []
    · rw [if_pos hr] at h ⊢
      exact h
    · rw [if_neg hr] at h ⊢
      exact ih _ _ h m (by omega)

theorem closureLoop_unique (ignoreDirs : List String) (imports : ImportsMap)
    (aff r1 r2 : List String) (n1 n2 : Nat)
    (h1 : closureLoop ignoreDirs imports n1 aff = some r1)
    (h2 : closureLoop ignoreDirs imports n2 aff = some r2) : r1 = r2 := by
  have e1 := closureLoop_mono _ _ _ _ _ h1 (max n1 n2) (le_max_left _ _)
  have e2 := closureLoop_mono _ _ _ _ _ h2 (max n1 n2) (le_max_right _ _)
  rw [e1] at e2
  exact Option.some.inj e2

theorem get_subset_importers (imports : ImportsMap) (p x : String)
    (h : x ∈ imports.get p) : x ∈ importers imports := by
  induction imports with
  | nil => simp [ImportsMap.get] at h
  | cons kv rest ih =>
    obtain ⟨k, v⟩ := kv
    simp only [ImportsMap.get] at h
    simp only [importers, List.mem_append]
    by_cases hk : k = p
    · rw [if_pos hk] at h
      exact Or.inl h
    · rw [if_neg hk] at h
      exact Or.inr (ih h)

theorem closureLoop_enough (ignoreDirs : List String) (imports : ImportsMap) :
    ∀ (fuel : Nat) (aff : List String),
      ((importers imports).toFinset \ aff.toFinset).card < fuel →
      ∃ r, closureLoop ignoreDirs imports fuel aff = some r := by
  intro fuel
  induction fuel with
  | zero => intro aff h; omega
  | succ n ih =>
    intro aff h
    rw [closureLoop_succ]
    by_cases hr : round ignoreDirs imports aff = []
    · rw [if_pos hr]
      exact ⟨aff, rfl⟩
    · rw [if_neg hr]
      apply ih
      obtain ⟨x, hx⟩ := List.exists_mem_of_ne_nil _ hr
      obtain ⟨⟨p, _, hxp⟩, _, hxa⟩ := (mem_round _ _ _ _).1 hx
      have hlt : ((importers imports).toFinset \
          (aff ++ round ignoreDirs imports aff).toFinset).card <
          ((importers imports).toFinset \ aff.toFinset).card := by
        apply Finset.card_lt_card
        rw [Finset.ssubset_iff_of_subset]
        · refine ⟨x, ?_, ?_⟩
          · simp only [Finset.mem_sdiff, List.mem_toFinset]
            exact ⟨get_subset_importers _ _ _ hxp, hxa⟩
          · simp only [Finset.mem_sdiff, List.mem_toFinset, List.mem_append, not_and, not_not]
            intro _
            exact Or.inr hx
        · intro y
          simp only [Finset.mem_sdiff, List.mem_toFinset, List.mem_append, not_or]
          rintro ⟨h1, h2, _⟩
          exact ⟨h1, h2⟩
      omega

theorem closureLoop_total (ignoreDirs : List String) (imports : ImportsMap)
    (seeds : List String) :
    ∃ r, closureLoop ignoreDirs imports (enoughRounds imports) seeds = some r := by
  apply closureLoop_enough
  unfold enoughRounds
  have h1 : ((importers imports).toFinset \ seeds.toFinset).card ≤
      (importers imports).toFinset.card := Finset.card_le_card Finset.sdiff_subset
  have h2 := List.toFinset_card_le (importers imports)
  omega

theorem loopInv_seeds (ignoreDirs : List String) (imports : ImportsMap) (seeds : List String) :
    LoopInv ignoreDirs imports seeds seeds :=
  ⟨List.prefix_refl _, fun q hq => ⟨q, hq, Relation.ReflTransGen.refl⟩, fun h => h,
    fun h => h⟩

theorem loopInv_step (ignoreDirs : List String) (imports : ImportsMap)
    (seeds aff : List String) (h : LoopInv ignoreDirs imports seeds aff) :
    LoopInv ignoreDirs imports seeds (aff ++ round ignoreDirs imports aff) := by
  obtain ⟨h1, h2, h3, h4⟩ := h
  refine ⟨h1.trans (List.prefix_append _ _), ?_, ?_, ?_⟩
  · intro q hq
    rcases List.mem_append.1 hq with hq | hq
    · exact h2 q hq
    · obtain ⟨⟨p, hp, hqp⟩, hi, _⟩ := (mem_round _ _ _ _).1 hq
      obtain ⟨p0, hp0, hreach⟩ := h2 p hp
      exact ⟨p0, hp0, hreach.tail ⟨hqp, hi⟩⟩
  · intro hnd
    rw [List.nodup_append]
    refine ⟨h3 hnd, round_nodup _ _ _, ?_⟩
    intro a ha hb
    exact ((mem_round _ _ _ _).1 hb).2.2 ha
  · intro hs q hq
    rcases List.mem_append.1 hq with hq | hq
    · exact h4 hs q hq
    · exact ((mem_round _ _ _ _).1 hq).2.1

theorem closureLoop_spec (ignoreDirs : List String) (imports : ImportsMap)
    (seeds : List String) :
    ∃ r, closureLoop ignoreDirs imports (enoughRounds imports) seeds = some r ∧
      round ignoreDirs imports r = [] ∧ LoopInv ignoreDirs imports seeds r := by
  obtain ⟨r, hr⟩ := closureLoop_total ignoreDirs imports seeds
  obtain ⟨hinv, hfix⟩ := closureLoop_invariant ignoreDirs imports
    (LoopInv ignoreDirs imports seeds) (loopInv_step _ _ _) _ _ _ (loopInv_seeds _ _ _) hr
  exact ⟨r, hr, hfix, hinv⟩

theorem chain_mem_of_closed (ignoreDirs : List String) (imports : ImportsMap)
    (r : List String) (hfix : round ignoreDirs imports r = []) :
    ∀ (ps : List String) (p0 : String), p0 ∈ r →
      List.Chain (ImporterEdge ignoreDirs imports) p0 ps → ∀ x ∈ ps, x ∈ r := by
  intro ps
  induction ps with
  | nil => intro p0 _ _ x hx; cases hx
  | cons p ps ih =>
    intro p0 hp0 hc x hx
    rw [List.chain_cons] at hc
    have hp : p ∈ r := (round_eq_nil_iff _ _ _).1 hfix p0 hp0 p hc.1.1 hc.1.2
    rcases List.mem_cons.1 hx with rfl | hx
    · exact hp
    · exact ih p hp hc.2 x hx

theorem chain_of_reach (ignoreDirs : List String) (imports : ImportsMap) (p0 q : String)
    (h : Relation.ReflTransGen (ImporterEdge ignoreDirs imports) p0 q) :
    q = p0 ∨ ∃ ps, List.Chain (ImporterEdge ignoreDirs imports) p0 ps ∧
      ps.getLast? = some q := by
  obtain ⟨l, hc, hl⟩ := List.exists_chain_of_relationReflTransGen h
  cases l with
  | nil => left; simpa using hl.symm
  | cons a l =>
    right
    refine ⟨a :: l, hc, ?_⟩
    rw [List.getLast?_eq_getLast _ (List.cons_ne_nil _ _)]
    rw [List.getLast_cons (List.cons_ne_nil _ _)] at hl
    rw [hl]

theorem chain_not_ignored (ignoreDirs : List String) (imports : ImportsMap) :
    ∀ (ps : List String) (p0 : String),
      List.Chain (ImporterEdge ignoreDirs imports) p0 ps →
      List.Chain (fun p q => q ∈ imports.get p) p0 ps ∧
        ∀ x ∈ ps, isIgnored ignoreDirs x = false := by
  intro ps
  induction ps with
  | nil => intro p0 _; exact ⟨List.Chain.nil, fun x hx => by cases hx⟩
  | cons p ps ih =>
    intro p0 hc
    rw [List.chain_cons] at hc
    obtain ⟨h1, h2⟩ := ih p hc.2
    refine ⟨List.Chain.cons hc.1.1 h1, ?_⟩
    intro x hx
    rcases List.mem_cons.1 hx with rfl | hx
    · exact hc.1.2
    · exact h2 x hx

/-! ## The seeds -/

theorem seedStep_packages (ignoreDirs : List String) (w : World) (cwd : String)
    (st : SeedState) (f : String) (pkg : Package)
    (h : pkg ∈ (seedStep ignoreDirs w cwd st f).modifiedPackages) :
    pkg ∈ st.modifiedPackages ∨
      (pkg.Goroot = false ∧ isIgnored ignoreDirs f = false ∧
        w.containingPackage cwd f = .ok pkg) := by
  unfold seedStep at h
  by_cases hi : isIgnored ignoreDirs f = true
  · rw [if_pos hi] at h
    exact Or.inl h
  · rw [if_neg hi] at h
    cases hc : w.containingPackage cwd f with
    | error err =>
      rw [hc] at h
      exact Or.inl h
    | ok found =>
      rw [hc] at h
      by_cases hg : found.Goroot = true
      · simp only [hg, if_true] at h
        exact Or.inl h
      · by_cases hs : st.pkgSeen.contains found.ImportPath = true
        · simp only [hg, hs, if_true] at h
          exact Or.inl (by simpa using h)
        · simp only [hg, hs] at h
          have h' : pkg ∈ st.modifiedPackages ∨ pkg = found := by simpa using h
          rcases h' with h | h
          · exact Or.inl h
          · subst h
            exact Or.inr ⟨by simpa using hg, by simpa using hi, rfl⟩

theorem seedFold_packages (ignoreDirs : List String) (w : World) (cwd : String) :
    ∀ (files : List String) (st : SeedState) (pkg : Package),
      pkg ∈ (files.foldl (seedStep ignoreDirs w cwd) st).modifiedPackages →
      pkg ∈ st.modifiedPackages ∨
        (pkg.Goroot = false ∧ ∃ f ∈ files, isIgnored ignoreDirs f = false ∧
          w.containingPackage cwd f = .ok pkg) := by
  intro files
  induction files with
  | nil => intro st pkg h; exact Or.inl h
  | cons f fs ih =>
    intro st pkg h
    rw [List.foldl_cons] at h
    rcases ih _ pkg h with h | ⟨hg, f', hf', h1, h2⟩
    · rcases seedStep_packages _ _ _ _ _ _ h with h | ⟨hg, h1, h2⟩
      · exact Or.inl h
      · exact Or.inr ⟨hg, f, List.mem_cons_self _ _, h1, h2⟩
    · exact Or.inr ⟨hg, f', List.mem_cons_of_mem _ hf', h1, h2⟩

/-! ## The scan -/

theorem scanStep_keeps_error (ignoreDirs : List String) (w : World) (repo : String)
    (st : ScanState) (call : String × Option String) (h : st.scanErr.isSome = true) :
    (scanStep ignoreDirs w repo st call).scanErr.isSome = true := by
  unfold scanStep
  split
  · rfl
  · split
    · exact h
    · split
      · exact h
      · rfl
      · exact h

theorem scanFold_keeps_error (ignoreDirs : List String) (w : World) (repo : String) :
    ∀ (calls : List (String × Option String)) (st : ScanState),
      st.scanErr.isSome = true →
      (calls.foldl (scanStep ignoreDirs w repo) st).scanErr.isSome = true := by
  intro calls
  induction calls with
  | nil => intro st h; exact h
  | cons c cs ih =>
    intro st h
    rw [List.foldl_cons]
    exact ih _ (scanStep_keeps_error _ _ _ _ _ h)

theorem scanStep_sets_error (ignoreDirs : List String) (w : World) (repo : String)
    (st : ScanState) (call : String × Option String)
    (h : (∃ err, call.2 = some err) ∨
      (isIgnored ignoreDirs call.1 = false ∧
        ∃ msg, w.importPackage call.1 repo = .error (.other msg))) :
    (scanStep ignoreDirs w repo st call).scanErr.isSome = true := by
  unfold scanStep
  cases hc : call.2 with
  | some err => rfl
  | none =>
    rcases h with ⟨err, he⟩ | ⟨hi, msg, hm⟩
    · rw [hc] at he; cases he
    · simp only [hi, hm]
      rfl

theorem scanFold_sets_error (ignoreDirs : List String) (w : World) (repo : String) :
    ∀ (calls : List (String × Option String)) (st : ScanState),
      (∃ call ∈ calls, (∃ err, call.2 = some err) ∨
        (isIgnored ignoreDirs call.1 = false ∧
          ∃ msg, w.importPackage call.1 repo = .error (.other msg))) →
      (calls.foldl (scanStep ignoreDirs w repo) st).scanErr.isSome = true := by
  intro calls
  induction calls with
  | nil => intro st h; obtain ⟨c, hc, _⟩ := h; cases hc
  | cons c cs ih =>
    intro st h
    rw [List.foldl_cons]
    obtain ⟨call, hmem, hcall⟩ := h
    rcases List.mem_cons.1 hmem with rfl | hmem
    · exact scanFold_keeps_error _ _ _ _ _ (scanStep_sets_error _ _ _ _ _ hcall)
    · exact ih _ ⟨call, hmem, hcall⟩

/-! ## The claims on the closure loop -/

/-- C1: an import path is in the Affected sequence the closure loop produces
exactly when it is a seed or the end of a chain that starts at a seed, follows
index entries, and in which no unit after the seed matches an ignore pattern. -/
theorem affected_iff_seed_or_chain (ignoreDirs : List String) (imports : ImportsMap)
    (seeds : List String) :
    ∃ fuel affected, closureLoop ignoreDirs imports fuel seeds = some affected ∧
      ∀ q, q ∈ affected ↔
        (q ∈ seeds ∨ ∃ p0 ∈ seeds, ∃ ps,
          List.Chain (fun p p' => p' ∈ imports.get p ∧ isIgnored ignoreDirs p' = false) p0 ps ∧
          ps.getLast? = some q) := by
  obtain ⟨r, hr, hfix, hpre, hreach, _, _⟩ := closureLoop_spec ignoreDirs imports seeds
  refine ⟨_, r, hr, ?_⟩
  intro q
  constructor
  · intro hq
    obtain ⟨p0, hp0, h⟩ := hreach q hq
    rcases chain_of_reach _ _ _ _ h with rfl | ⟨ps, hc, hl⟩
    · exact Or.inl hp0
    · exact Or.inr ⟨p0, hp0, ps, hc, hl⟩
  · rintro (hq | ⟨p0, hp0, ps, hc, hl⟩)
    · exact hpre.subset hq
    · exact chain_mem_of_closed _ _ r hfix ps p0 (hpre.subset hp0) hc q
        (List.mem_of_getLast?_eq_some hl)

/-- C2: the Affected sequence the closure loop produces begins with the seed
sequence, unchanged and in the same order, so every seed is in Affected. -/
theorem affected_starts_with_seeds (ignoreDirs : List String) (imports : ImportsMap)
    (seeds : List String) :
    ∃ fuel affected, closureLoop ignoreDirs imports fuel seeds = some affected ∧
      affected.take seeds.length = seeds ∧ ∀ s ∈ seeds, s ∈ affected := by
  obtain ⟨r, hr, _, hpre, _⟩ := closureLoop_spec ignoreDirs imports seeds
  exact ⟨_, r, hr, List.prefix_iff_eq_take.1 hpre |>.symm, fun s hs => hpre.subset hs⟩

/-- C3: the Affected sequence is a fixed point: a round run on it stages no
addition, and the closure loop started from it returns it unchanged, after
one round, whatever fuel it is given. -/
theorem affected_is_fixed_point (ignoreDirs : List String) (imports : ImportsMap)
    (seeds : List String) :
    ∃ fuel affected, closureLoop ignoreDirs imports fuel seeds = some affected ∧
      round ignoreDirs imports affected = [] ∧
      ∀ fuel2, closureLoop ignoreDirs imports (fuel2 + 1) affected = some affected := by
  obtain ⟨r, hr, hfix, _⟩ := closureLoop_spec ignoreDirs imports seeds
  exact ⟨_, r, hr, hfix, fun n => closureLoop_fixed _ _ n r hfix⟩

/-- C4: the closure loop terminates for every finite index, cyclic or not: some
number of rounds, at most one more than the number of stored importers, ends
with a round that stages nothing, and the loop returns the same sequence for
every larger fuel. -/
theorem closure_terminates (ignoreDirs : List String) (imports : ImportsMap)
    (seeds : List String) :
    ∃ rounds affected, rounds ≤ enoughRounds imports ∧
      closureLoop ignoreDirs imports rounds seeds = some affected ∧
      round ignoreDirs imports affected = [] ∧
      ∀ fuel, rounds ≤ fuel → closureLoop ignoreDirs imports fuel seeds = some affected := by
  obtain ⟨r, hr, hfix, _⟩ := closureLoop_spec ignoreDirs imports seeds
  exact ⟨_, r, le_refl _, hr, hfix, closureLoop_mono _ _ _ _ _ hr⟩

/-- C5: from a seed sequence without duplicates the Affected sequence has no
duplicates, whatever the index; and for the two-unit cycle (U imports V and
V imports U, V not ignored) with seed U, Affected is U then V, once each. -/
theorem affected_nodup (ignoreDirs : List String) (imports : ImportsMap)
    (seeds : List String) (hseeds : seeds.Nodup) :
    (∃ fuel affected, closureLoop ignoreDirs imports fuel seeds = some affected ∧
      affected.Nodup ∧ ∀ q, affected.count q ≤ 1) ∧
    (∀ U V : String, U ≠ V → isIgnored ignoreDirs V = false →
      ∃ fuel affected,
        closureLoop ignoreDirs [(V, [U]), (U, [V])] fuel [U] = some affected ∧
        affected = [U, V] ∧ affected.count U = 1 ∧ affected.count V = 1) := by
  constructor
  · obtain ⟨r, hr, _, _, _, hnd, _⟩ := closureLoop_spec ignoreDirs imports seeds
    exact ⟨_, r, hr, hnd hseeds, fun q => List.nodup_iff_count_le_one.1 (hnd hseeds) q⟩
  · intro U V hne hV
    have hne2 : ¬ V = U := fun h => hne h.symm
    have hr1 : round ignoreDirs [(V, [U]), (U, [V])] [U] = [V] := by
      simp [round, scanMembers, scanImporters, ImportsMap.get, hne2, hV, found,
        List.any_cons]
    have hr2 : round ignoreDirs [(V, [U]), (U, [V])] [U, V] = [] := by
      rw [round_eq_nil_iff]
      intro p hp x hx _
      simp only [List.mem_cons, List.mem_singleton, List.not_mem_nil, or_false] at hp
      rcases hp with rfl | rfl
      · simp [ImportsMap.get, hne2] at hx
        simp [hx]
      · simp [ImportsMap.get] at hx
        simp [hx]
    refine ⟨2, [U, V], ?_, rfl, ?_, ?_⟩
    · rw [closureLoop_succ, hr1, if_neg (by simp)]
      exact closureLoop_fixed _ _ 0 _ hr2
    · simp [List.count_cons, hne2]
    · simp [List.count_cons, hne]

/-- Witness of C5 at the index of the three-unit chain with a repeated entry. -/
theorem affected_nodup_witness :
    (∃ fuel affected,
      closureLoop [] [("a", ["b", "b"]), ("b", ["c", "a"])] fuel ["a"] = some affected ∧
      affected.Nodup ∧ ∀ q, affected.count q ≤ 1) ∧
    (∀ U V : String, U ≠ V → isIgnored [] V = false →
      ∃ fuel affected,
        closureLoop [] [(V, [U]), (U, [V])] fuel [U] = some affected ∧
        affected = [U, V] ∧ affected.count U = 1 ∧ affected.count V = 1) :=
  affected_nodup [] [("a", ["b", "b"]), ("b", ["c", "a"])] ["a"] (by decide)

/-- C6: when no seed matches an ignore pattern, no member of Affected matches
one, and every member that is not a seed is the end of a chain of importers
from a seed on which no unit matches an ignore pattern: nothing is reached
only through an ignored unit. -/
theorem affected_avoids_ignored (ignoreDirs : List String) (imports : ImportsMap)
    (seeds : List String) (hseeds : ∀ s ∈ seeds, isIgnored ignoreDirs s = false) :
    ∃ fuel affected, closureLoop ignoreDirs imports fuel seeds = some affected ∧
      (∀ q ∈ affected, isIgnored ignoreDirs q = false) ∧
      (∀ q ∈ affected, q ∈ seeds ∨ ∃ p0 ∈ seeds, ∃ ps,
        List.Chain (fun p p' => p' ∈ imports.get p) p0 ps ∧ ps.getLast? = some q ∧
        ∀ p ∈ p0 :: ps, isIgnored ignoreDirs p = false) := by
  obtain ⟨r, hr, _, _, hreach, _, hign⟩ := closureLoop_spec ignoreDirs imports seeds
  refine ⟨_, r, hr, hign hseeds, ?_⟩
  intro q hq
  obtain ⟨p0, hp0, h⟩ := hreach q hq
  rcases chain_of_reach _ _ _ _ h with rfl | ⟨ps, hc, hl⟩
  · exact Or.inl hp0
  · obtain ⟨hraw, hni⟩ := chain_not_ignored _ _ ps p0 hc
    refine Or.inr ⟨p0, hp0, ps, hraw, hl, ?_⟩
    intro p hp
    rcases List.mem_cons.1 hp with rfl | hp
    · exact hseeds _ hp0
    · exact hni p hp

/-- Witness of C6: unit `d` is ignored and imports the seed `a`; `e` imports `d`. -/
theorem affected_avoids_ignored_witness :
    ∃ fuel affected, closureLoop ["d"] [("a", ["d"]), ("d", ["e"])] fuel ["a"] = some affected ∧
      (∀ q ∈ affected, isIgnored ["d"] q = false) ∧
      (∀ q ∈ affected, q ∈ ["a"] ∨ ∃ p0 ∈ ["a"], ∃ ps,
        List.Chain (fun p p' => p' ∈ ImportsMap.get [("a", ["d"]), ("d", ["e"])] p) p0 ps ∧
        ps.getLast? = some q ∧
        ∀ p ∈ p0 :: ps, isIgnored ["d"] p = false) :=
  affected_avoids_ignored ["d"] [("a", ["d"]), ("d", ["e"])] ["a"] (by decide)

/-! ## The claims on the driver and the filter -/

/-- C7, as the code has it: every unit of the seed sequence is not flagged as
standard and is the unit resolved from a changed file whose path matches no
ignore pattern (the filter reads the file path, not the import path). -/
theorem seeds_not_standard_from_unignored_files (ignoreDirs : List String) (w : World)
    (cwd : String) (files : List String) (stderr : String) :
    ∀ pkg ∈ (seedLoop ignoreDirs w cwd files stderr).modifiedPackages,
      pkg.Goroot = false ∧
      ∃ f ∈ files, isIgnored ignoreDirs f = false ∧ w.containingPackage cwd f = .ok pkg := by
  intro pkg h
  rcases seedFold_packages ignoreDirs w cwd files _ pkg h with h | h
  · cases h
  · exact h

/-- Witness of C7: the seed of the run with five changed files. -/
theorem seeds_not_standard_from_unignored_files_witness :
    Package.Goroot { ImportPath := "proj/a", Goroot := false, Imports := ["fmt"] } = false ∧
    ∃ f ∈ ["/work/.checkout_git/x.go", "/go/src/fmt/print.go", "/tmp/y.go",
        "/work/src/proj/a/a.go", "/work/src/proj/a/b.go"],
      isIgnored [".checkout_git"] f = false ∧
      mixedWorld.containingPackage "/work" f =
        .ok { ImportPath := "proj/a", Goroot := false, Imports := ["fmt"] } :=
  seeds_not_standard_from_unignored_files [".checkout_git"] mixedWorld "/work"
    ["/work/.checkout_git/x.go", "/go/src/fmt/print.go", "/tmp/y.go",
      "/work/src/proj/a/a.go", "/work/src/proj/a/b.go"] ""
    { ImportPath := "proj/a", Goroot := false, Imports := ["fmt"] } (by decide)

/-- C7 fails as stated: a changed file whose path matches no pattern resolves
to a unit whose import path matches one, and that unit is a seed. -/
theorem seeds_may_match_ignore_pattern :
    isIgnored [".checkout_git"] "/work/link/x.go" = false ∧
    seedPaths (seedLoop [".checkout_git"] linkedWorld "/work"
      ["/work/link/x.go"] "").modifiedPackages = ["proj/.checkout_git/dep"] ∧
    isIgnored [".checkout_git"] "proj/.checkout_git/dep" = true := by
  decide

/-- C8, as the code has it: when the Affected sequence is empty the program
writes exactly one line terminator to standard output and ends with exit
code 0. -/
theorem empty_affected_prints_newline (w : World) (fuel : Nat) (stderr : String)
    (h : affectedPackages w fuel = some (.ok ([], stderr))) :
    main w fuel = some { stdout := "\n", stderr := stderr, exitCode := 0 } := by
  unfold main
  rw [h]
  rfl

/-- Witness of C8: the only changed file belongs to a standard unit. -/
theorem empty_affected_prints_newline_witness :
    main stdlibWorld 1 =
      some { stdout := "\n", stderr := "Ignoring STDLIB file /go/src/fmt/print.go\n",
             exitCode := 0 } :=
  empty_affected_prints_newline stdlibWorld 1 _ rfl

/-- C8 fails as stated: with the only changed file in a standard unit the
Affected sequence is empty and standard output is not. -/
theorem empty_affected_output_not_empty :
    ∃ stderr out, affectedPackages stdlibWorld 1 = some (.ok ([], stderr)) ∧
      main stdlibWorld 1 = some out ∧ out.exitCode = 0 ∧ out.stdout ≠ "" ∧
      out.stdout.length = 1 :=
  ⟨"Ignoring STDLIB file /go/src/fmt/print.go\n",
    { stdout := "\n", stderr := "Ignoring STDLIB file /go/src/fmt/print.go\n", exitCode := 0 },
    rfl, by decide, by decide, by decide, by decide⟩

/-- C9: when some call of the scan callback carries an error, or the import of
a unit that is not ignored fails with an error other than "no Go files", the
run ends with exit code 1 and nothing on standard output, for every fuel; and
if the run got as far as the scan, the last thing on standard error is the
message of the abort. -/
theorem scan_error_aborts (w : World) (fuel : Nat)
    (h : ∃ call ∈ w.forEachPackage, (∃ err, call.2 = some err) ∨
      (isIgnored (parseIgnoreDirs w.ignoreDirsFlag) call.1 = false ∧
        ∀ repo, w.gitRevParse = .ok repo →
          ∃ msg, w.importPackage call.1 repo = .error (.other msg))) :
    ∃ out, main w fuel = some out ∧ out.exitCode = 1 ∧ out.stdout = "" ∧
      (∀ commitRange root files cwd, w.args = [commitRange] → w.gitRevParse = .ok root →
        w.gitDiff root commitRange = .ok files → w.getwd = .ok cwd →
        ∃ pre, out.stderr = pre ++ "Package scan incomplete, aborting") := by
  unfold main affectedPackages
  rcases hargs : w.args with _ | ⟨commitRange, _ | ⟨a2, rest⟩⟩
  · exact ⟨_, rfl, rfl, rfl, fun _ _ _ _ h => by cases h⟩
  · simp only [changedFiles, gitRoot]
    cases hroot : w.gitRevParse with
    | error err => exact ⟨_, rfl, rfl, rfl, fun _ _ _ _ _ h => by cases h⟩
    | ok root =>
      simp only []
      cases hdiff : w.gitDiff root commitRange with
      | error err =>
        refine ⟨_, rfl, rfl, rfl, ?_⟩
        intro c r fs cwd hc hr hd _
        cases hc; cases hr
        rw [hdiff] at hd
        cases hd
      | ok files =>
        simp only []
        cases hcwd : w.getwd with
        | error err => exact ⟨_, rfl, rfl, rfl, fun _ _ _ _ _ _ _ h => by cases h⟩
        | ok cwd =>
          simp only []
          have herr : (scanLoop (parseIgnoreDirs w.ignoreDirsFlag) w root
              (seedLoop (parseIgnoreDirs w.ignoreDirsFlag) w cwd files "").stderr).scanErr.isSome
              = true := by
            apply scanFold_sets_error
            obtain ⟨call, hmem, hcall⟩ := h
            refine ⟨call, hmem, ?_⟩
            rcases hcall with h1 | ⟨h1, h2⟩
            · exact Or.inl h1
            · exact Or.inr ⟨h1, h2 root hroot⟩
          obtain ⟨e, he⟩ := Option.isSome_iff_exists.1 herr
          rw [he]
          exact ⟨_, rfl, rfl, rfl, fun _ _ _ _ _ _ _ _ => ⟨_, rfl⟩⟩
  · exact ⟨_, rfl, rfl, rfl, fun _ _ _ _ h => by cases h⟩

/-- Witness of C9: the scan cannot read `proj/b`; the fuel is zero. -/
theorem scan_error_aborts_witness :
    ∃ out, main brokenScanWorld 0 = some out ∧ out.exitCode = 1 ∧ out.stdout = "" ∧
      (∀ commitRange root files cwd, brokenScanWorld.args = [commitRange] →
        brokenScanWorld.gitRevParse = .ok root →
        brokenScanWorld.gitDiff root commitRange = .ok files →
        brokenScanWorld.getwd = .ok cwd →
        ∃ pre, out.stderr = pre ++ "Package scan incomplete, aborting") :=
  scan_error_aborts brokenScanWorld 0
    ⟨("proj/b", some "permission denied"), by decide, Or.inl ⟨_, rfl⟩⟩

/-- C10: `isIgnored` answers true exactly when the identifier contains one of
the configured patterns as a substring, and answers false for every identifier
when no pattern is configured. -/
theorem isIgnored_iff_contains_pattern (ignoreDirs : List String) (f : String) :
    (isIgnored ignoreDirs f = true ↔
      ∃ d ∈ ignoreDirs, ∃ pre post : String, f = pre ++ d ++ post) ∧
    isIgnored [] f = false := by
  refine ⟨?_, rfl⟩
  rw [isIgnored_iff]
  constructor
  · rintro ⟨d, hd, h⟩
    exact ⟨d, hd, (stringsContains_iff _ _).1 h⟩
  · rintro ⟨d, hd, h⟩
    exact ⟨d, hd, (stringsContains_iff _ _).2 h⟩

/-! ## Splitting at a separator -/

theorem splitChars_ne_nil (sep : Char) (cs : List Char) : splitChars sep cs ≠ [] := by
  cases cs with
  | nil => simp [splitChars]
  | cons c cs =>
    unfold splitChars
    split
    · simp
    · split <;> simp

theorem splitChars_intercalate (sep : Char) (cs : List Char) :
    List.intercalate [sep] (splitChars sep cs) = cs := by
  induction cs with
  | nil => simp [splitChars, List.intercalate]
  | cons c cs ih =>
    unfold splitChars
    by_cases hc : c = sep
    · rw [if_pos hc]
      cases hs : splitChars sep cs with
      | nil => exact absurd hs (splitChars_ne_nil sep cs)
      | cons w ws =>
        rw [hs] at ih
        simp only [List.intercalate, List.intersperse, List.flatten, List.nil_append] at ih ⊢
        rw [hc]
        simpa using ih
    · rw [if_neg hc]
      cases hs : splitChars sep cs with
      | nil => exact absurd hs (splitChars_ne_nil sep cs)
      | cons w ws =>
        rw [hs] at ih
        simp only []
        cases ws with
        | nil =>
          simp only [List.intercalate, List.intersperse, List.flatten, List.append_nil] at ih ⊢
          rw [ih]
        | cons w2 ws2 =>
          simp only [List.intercalate, List.intersperse, List.flatten, List.cons_append] at ih ⊢
          rw [ih]

theorem splitChars_no_sep (sep : Char) (cs : List Char) :
    ∀ w ∈ splitChars sep cs, sep ∉ w := by
  induction cs with
  | nil => simp [splitChars]
  | cons c cs ih =>
    unfold splitChars
    by_cases hc : c = sep
    · rw [if_pos hc]
      intro w hw
      rcases List.mem_cons.1 hw with rfl | hw
      · simp
      · exact ih w hw
    · rw [if_neg hc]
      cases hs : splitChars sep cs with
      | nil => exact absurd hs (splitChars_ne_nil sep cs)
      | cons w ws =>
        rw [hs] at ih
        intro x hx
        rcases List.mem_cons.1 hx with rfl | hx
        · intro hmem
          rcases List.mem_cons.1 hmem with h | h
          · exact hc h.symm
          · exact ih w (List.mem_cons_self _ _) h
        · exact ih x (List.mem_cons_of_mem _ hx)

theorem isIgnored_of_empty_pattern (ignoreDirs : List String) (h : "" ∈ ignoreDirs)
    (f : String) : isIgnored ignoreDirs f = true := by
  rw [isIgnored_iff]
  refine ⟨"", h, ?_⟩
  rw [stringsContains_iff]
  exact ⟨"", f, by apply String.ext; simp [String.data_append]⟩

theorem parseIgnoreDirs_of_ne (d : String) (h : d ≠ "") :
    parseIgnoreDirs d = stringsSplit d ',' := by
  unfold parseIgnoreDirs
  have hl : d.length > 0 := by
    rw [String.length]
    apply List.length_pos.2
    intro hd
    apply h
    apply String.ext
    simpa using hd
  rw [if_pos hl]

theorem round_nil_seeds (ignoreDirs : List String) (imports : ImportsMap) :
    round ignoreDirs imports [] = [] := rfl

theorem seedFold_all_ignored (ignoreDirs : List String) (w : World) (cwd : String)
    (h : ∀ f, isIgnored ignoreDirs f = true) :
    ∀ (files : List String) (st : SeedState),
      files.foldl (seedStep ignoreDirs w cwd) st = st := by
  intro files
  induction files with
  | nil => intro st; rfl
  | cons f fs ih =>
    intro st
    rw [List.foldl_cons]
    have : seedStep ignoreDirs w cwd st f = st := by
      unfold seedStep
      rw [if_pos (h f)]
    rw [this, ih]

theorem scanStep_all_ignored (ignoreDirs : List String) (w : World) (repo : String)
    (h : ∀ f, isIgnored ignoreDirs f = true) (st : ScanState)
    (call : String × Option String) :
    (scanStep ignoreDirs w repo st call).imports = st.imports := by
  unfold scanStep
  split
  · rfl
  · rw [if_pos (h _)]

theorem scanFold_all_ignored (ignoreDirs : List String) (w : World) (repo : String)
    (h : ∀ f, isIgnored ignoreDirs f = true) :
    ∀ (calls : List (String × Option String)) (st : ScanState),
      (calls.foldl (scanStep ignoreDirs w repo) st).imports = st.imports := by
  intro calls
  induction calls with
  | nil => intro st; rfl
  | cons c cs ih =>
    intro st
    rw [List.foldl_cons, ih, scanStep_all_ignored _ _ _ h]

/-- C11: with the empty option value the pattern list is empty and `isIgnored`
is false everywhere, so a changed file that resolves to a new non-standard
unit becomes a seed, a scanned unit that imports is indexed and an importer
not yet present is staged; for a non-empty value the pattern list is the
value split at commas: its pieces hold no comma and, joined by commas, give
the value back. -/
theorem empty_flag_disables_ignoring :
    parseIgnoreDirs "" = [] ∧
    (∀ f, isIgnored (parseIgnoreDirs "") f = false) ∧
    (∀ (w : World) (cwd : String) (st : SeedState) (f : String) (pkg : Package),
      w.containingPackage cwd f = .ok pkg → pkg.Goroot = false →
      st.pkgSeen.contains pkg.ImportPath = false →
      (seedStep (parseIgnoreDirs "") w cwd st f).modifiedPackages =
        st.modifiedPackages ++ [pkg]) ∧
    (∀ (w : World) (repo : String) (st : ScanState) (p : String) (pkg : Package),
      w.importPackage p repo = .ok pkg →
      (scanStep (parseIgnoreDirs "") w repo st (p, none)).imports =
        addImports st.imports p pkg.Imports) ∧
    (∀ (aff na rest : List String) (imp : String), found aff na imp = false →
      scanImporters (parseIgnoreDirs "") aff (imp :: rest) na =
        scanImporters (parseIgnoreDirs "") aff rest (na ++ [imp])) ∧
    (∀ d : String, d ≠ "" →
      parseIgnoreDirs d = stringsSplit d ',' ∧
      List.intercalate [','] ((parseIgnoreDirs d).map String.data) = d.data ∧
      ∀ p ∈ parseIgnoreDirs d, ',' ∉ p.data) := by
  have h0 : parseIgnoreDirs "" = [] := by decide
  refine ⟨h0, ?_, ?_, ?_, ?_, ?_⟩
  · intro f
    rw [h0]
    rfl
  · intro w cwd st f pkg hc hg hs
    rw [h0]
    have hs2 : pkg.ImportPath ∉ st.pkgSeen := by simpa using hs
    simp [seedStep, isIgnored, hc, hg, hs2]
  · intro w repo st p pkg hp
    rw [h0]
    simp [scanStep, isIgnored, hp]
  · intro aff na rest imp hf
    rw [h0]
    simp [scanImporters, isIgnored, hf]
  · intro d hd
    rw [parseIgnoreDirs_of_ne d hd]
    refine ⟨rfl, ?_, ?_⟩
    · unfold stringsSplit
      rw [List.map_map]
      have : (String.data ∘ String.mk) = id := by funext x; rfl
      rw [this, List.map_id]
      exact splitChars_intercalate ',' d.data
    · intro p hp
      unfold stringsSplit at hp
      obtain ⟨cs, hcs, rfl⟩ := List.mem_map.1 hp
      exact splitChars_no_sep ',' d.data cs hcs

/-- C16: when every importer listed for a seed is ignored (in particular when
no seed has an index entry), a round on the seeds stages nothing and the
closure loop returns the seed sequence itself after one round, for every
fuel; with b importing a, c importing b and seed c, Affected is c alone. -/
theorem seeds_without_importers_unchanged (ignoreDirs : List String) (imports : ImportsMap)
    (seeds : List String)
    (h : ∀ s ∈ seeds, ∀ q ∈ imports.get s, isIgnored ignoreDirs q = true) :
    round ignoreDirs imports seeds = [] ∧
    (∀ fuel, closureLoop ignoreDirs imports (fuel + 1) seeds = some seeds) ∧
    closureLoop [] [("a", ["b"]), ("b", ["c"])] 1 ["c"] = some ["c"] := by
  have hr : round ignoreDirs imports seeds = [] := by
    rw [round_eq_nil_iff]
    intro p hp x hx hi
    rw [h p hp x hx] at hi
    cases hi
  exact ⟨hr, fun fuel => closureLoop_fixed _ _ fuel _ hr, by decide⟩

/-- Witness of C16: the seed `a` has one importer, `d`, and it is ignored. -/
theorem seeds_without_importers_unchanged_witness :
    round ["d"] [("a", ["d"]), ("d", ["e"])] ["a"] = [] ∧
    (∀ fuel, closureLoop ["d"] [("a", ["d"]), ("d", ["e"])] (fuel + 1) ["a"] = some ["a"]) ∧
    closureLoop [] [("a", ["b"]), ("b", ["c"])] 1 ["c"] = some ["c"] :=
  seeds_without_importers_unchanged ["d"] [("a", ["d"]), ("d", ["e"])] ["a"] (by decide)

/-- C19: when the option value is not empty and one of its comma-separated
pieces is empty (as for "a,", "," and "a,,b"), `isIgnored` is true for every
identifier; the loop over the changed files then leaves its variables as they
were (no seed), the scan leaves the index empty, and a run with at least one
unit of fuel either ends in `die` or ends with an empty Affected sequence. -/
theorem empty_segment_ignores_everything (d : String) (hne : d ≠ "")
    (hseg : "" ∈ stringsSplit d ',') :
    (∀ f, isIgnored (parseIgnoreDirs d) f = true) ∧
    (∀ (w : World) (cwd : String) (files : List String) (stderr : String),
      seedLoop (parseIgnoreDirs d) w cwd files stderr =
        { pkgSeen := [], modifiedPackages := [], stderr := stderr }) ∧
    (∀ (w : World) (repo stderr : String),
      (scanLoop (parseIgnoreDirs d) w repo stderr).imports = []) ∧
    (∀ (w : World) (fuel : Nat), w.ignoreDirsFlag = d →
      (∃ out, affectedPackages w (fuel + 1) = some (.error out)) ∨
      (∃ stderr, affectedPackages w (fuel + 1) = some (.ok ([], stderr)))) ∧
    ("" ∈ stringsSplit "a," ',' ∧ "" ∈ stringsSplit "," ',' ∧
      "" ∈ stringsSplit "a,,b" ',') := by
  have hall : ∀ f, isIgnored (parseIgnoreDirs d) f = true := by
    intro f
    apply isIgnored_of_empty_pattern
    rw [parseIgnoreDirs_of_ne d hne]
    exact hseg
  refine ⟨hall, ?_, ?_, ?_, by decide, by decide, by decide⟩
  · intro w cwd files stderr
    exact seedFold_all_ignored _ w cwd hall files _
  · intro w repo stderr
    exact scanFold_all_ignored _ w repo hall _ _
  · intro w fuel hw
    unfold affectedPackages
    rcases hargs : w.args with _ | ⟨commitRange, _ | ⟨a2, rest⟩⟩
    · exact Or.inl ⟨_, rfl⟩
    · simp only [changedFiles, gitRoot]
      cases hroot : w.gitRevParse with
      | error err => exact Or.inl ⟨_, rfl⟩
      | ok root =>
        simp only []
        cases hdiff : w.gitDiff root commitRange with
        | error err => exact Or.inl ⟨_, rfl⟩
        | ok files =>
          simp only []
          cases hcwd : w.getwd with
          | error err => exact Or.inl ⟨_, rfl⟩
          | ok cwd =>
            simp only []
            cases herr : (scanLoop (parseIgnoreDirs w.ignoreDirsFlag) w root
                (seedLoop (parseIgnoreDirs w.ignoreDirsFlag) w cwd files "").stderr).scanErr with
            | some e => exact Or.inl ⟨_, rfl⟩
            | none =>
              simp only []
              right
              have hseed : (seedLoop (parseIgnoreDirs w.ignoreDirsFlag) w cwd files
                  "").modifiedPackages = [] := by
                rw [hw]
                unfold seedLoop
                rw [seedFold_all_ignored _ w cwd hall files _]
              rw [hseed]
              simp only [seedPaths, List.map_nil]
              rw [closureLoop_fixed _ _ fuel [] (round_nil_seeds _ _)]
              exact ⟨_, rfl⟩
    · exact Or.inl ⟨_, rfl⟩

/-- Witness of C19: the option value "a,". -/
theorem empty_segment_ignores_everything_witness :
    (∀ f, isIgnored (parseIgnoreDirs "a,") f = true) ∧
    (∀ (w : World) (cwd : String) (files : List String) (stderr : String),
      seedLoop (parseIgnoreDirs "a,") w cwd files stderr =
        { pkgSeen := [], modifiedPackages := [], stderr := stderr }) ∧
    (∀ (w : World) (repo stderr : String),
      (scanLoop (parseIgnoreDirs "a,") w repo stderr).imports = []) ∧
    (∀ (w : World) (fuel : Nat), w.ignoreDirsFlag = "a," →
      (∃ out, affectedPackages w (fuel + 1) = some (.error out)) ∨
      (∃ stderr, affectedPackages w (fuel + 1) = some (.ok ([], stderr)))) ∧
    ("" ∈ stringsSplit "a," ',' ∧ "" ∈ stringsSplit "," ',' ∧
      "" ∈ stringsSplit "a,,b" ',') :=
  empty_segment_ignores_everything "a," (by decide) (by decide)

/-! ## The index -/

theorem get_set (m : ImportsMap) (k k2 : String) (v : List String) :
    (m.set k v).get k2 = if k = k2 then v else m.get k2 := by
  induction m with
  | nil => simp [ImportsMap.set, ImportsMap.get]
  | cons kv rest ih =>
    obtain ⟨a, b⟩ := kv
    unfold ImportsMap.set
    by_cases ha : a = k
    · rw [if_pos ha]
      subst ha
      simp only [ImportsMap.get]
      by_cases hk : a = k2
      · simp [hk]
      · simp [hk]
    · rw [if_neg ha]
      simp only [ImportsMap.get, ih]
      by_cases hk : k = k2
      · subst hk
        simp [ha]
      · simp [hk]

theorem get_addImports (p I : String) :
    ∀ (imps : List String) (m : ImportsMap),
      (addImports m p imps).get I = m.get I ++ List.replicate (imps.count I) p := by
  intro imps
  induction imps with
  | nil => intro m; simp [addImports]
  | cons imp rest ih =>
    intro m
    rw [addImports, ih, get_set]
    by_cases h : imp = I
    · subst h
      simp [List.count_cons, List.replicate_succ]
    · have h2 : (imp == I) = false := by simpa using h
      simp [h, h2, List.count_cons]

theorem scanStep_get (ignoreDirs : List String) (w : World) (repo I : String)
    (st : ScanState) (call : String × Option String) :
    (scanStep ignoreDirs w repo st call).imports.get I =
      st.imports.get I ++ contribution ignoreDirs w repo I call := by
  unfold scanStep contribution importList
  cases hc : call.2 with
  | some err => simp
  | none =>
    simp only []
    by_cases hi : isIgnored ignoreDirs call.1 = true
    · simp [hi]
    · rw [if_neg hi, if_neg hi]
      cases hp : w.importPackage call.1 repo with
      | error e =>
        cases e <;> simp
      | ok pkg =>
        simp only []
        exact get_addImports _ _ _ _

theorem scanFold_get (ignoreDirs : List String) (w : World) (repo I : String) :
    ∀ (calls : List (String × Option String)) (st : ScanState),
      (calls.foldl (scanStep ignoreDirs w repo) st).imports.get I =
        st.imports.get I ++ (calls.map (contribution ignoreDirs w repo I)).flatten := by
  intro calls
  induction calls with
  | nil => intro st; simp
  | cons c cs ih =>
    intro st
    rw [List.foldl_cons, ih, scanStep_get]
    simp [List.append_assoc]

theorem importers_set (m : ImportsMap) (k : String) (v : List String) (x : String)
    (h : x ∈ importers (m.set k v)) : x ∈ importers m ∨ x ∈ v := by
  induction m with
  | nil =>
    simp only [ImportsMap.set, importers, List.append_nil] at h
    exact Or.inr h
  | cons kv rest ih =>
    obtain ⟨a, b⟩ := kv
    unfold ImportsMap.set at h
    by_cases ha : a = k
    · rw [if_pos ha] at h
      simp only [importers, List.mem_append] at h ⊢
      rcases h with h | h
      · exact Or.inr h
      · exact Or.inl (Or.inr h)
    · rw [if_neg ha] at h
      simp only [importers, List.mem_append] at h ⊢
      rcases h with h | h
      · exact Or.inl (Or.inl h)
      · rcases ih h with h | h
        · exact Or.inl (Or.inr h)
        · exact Or.inr h

theorem importers_addImports (p x : String) :
    ∀ (imps : List String) (m : ImportsMap),
      x ∈ importers (addImports m p imps) → x ∈ importers m ∨ x = p := by
  intro imps
  induction imps with
  | nil => intro m h; exact Or.inl h
  | cons imp rest ih =>
    intro m h
    rw [addImports] at h
    rcases ih _ h with h | h
    · rcases importers_set _ _ _ _ h with h | h
      · exact Or.inl h
      · rcases List.mem_append.1 h with h | h
        · exact Or.inl (get_subset_importers _ _ _ h)
        · exact Or.inr (by simpa using h)
    · exact Or.inr h

theorem scanStep_importers (ignoreDirs : List String) (w : World) (repo : String)
    (st : ScanState) (call : String × Option String) (x : String)
    (h : x ∈ importers (scanStep ignoreDirs w repo st call).imports) :
    x ∈ importers st.imports ∨ isIgnored ignoreDirs x = false := by
  unfold scanStep at h
  cases hc : call.2 with
  | some err =>
    rw [hc] at h
    exact Or.inl h
  | none =>
    rw [hc] at h
    simp only [] at h
    by_cases hi : isIgnored ignoreDirs call.1 = true
    · rw [if_pos hi] at h
      exact Or.inl h
    · rw [if_neg hi] at h
      cases hp : w.importPackage call.1 repo with
      | error e =>
        rw [hp] at h
        cases e <;> exact Or.inl h
      | ok pkg =>
        rw [hp] at h
        rcases importers_addImports _ _ _ _ h with h | h
        · exact Or.inl h
        · right
          rw [h]
          simpa using hi

theorem scanFold_importers (ignoreDirs : List String) (w : World) (repo : String) :
    ∀ (calls : List (String × Option String)) (st : ScanState) (x : String),
      x ∈ importers (calls.foldl (scanStep ignoreDirs w repo) st).imports →
      x ∈ importers st.imports ∨ isIgnored ignoreDirs x = false := by
  intro calls
  induction calls with
  | nil => intro st x h; exact Or.inl h
  | cons c cs ih =>
    intro st x h
    rw [List.foldl_cons] at h
    rcases ih _ x h with h | h
    · exact scanStep_importers _ _ _ _ _ _ h
    · exact Or.inr h

/-! ## The loop without the test on importers -/

theorem scanImporters_eq_noTest (ignoreDirs aff : List String) :
    ∀ (imps na : List String), (∀ x ∈ imps, isIgnored ignoreDirs x = false) →
      scanImporters ignoreDirs aff imps na = scanImportersNoTest aff imps na := by
  intro imps
  induction imps with
  | nil => intro na _; rfl
  | cons imp rest ih =>
    intro na h
    have hi : isIgnored ignoreDirs imp = false := h imp (List.mem_cons_self _ _)
    have hrest : ∀ x ∈ rest, isIgnored ignoreDirs x = false :=
      fun x hx => h x (List.mem_cons_of_mem _ hx)
    unfold scanImporters scanImportersNoTest
    rw [hi]
    simp only [Bool.false_eq_true, if_false]
    rw [ih na hrest, ih (na ++ [imp]) hrest]

theorem scanMembers_eq_noTest (ignoreDirs : List String) (imports : ImportsMap)
    (aff : List String) (h : ∀ x ∈ importers imports, isIgnored ignoreDirs x = false) :
    ∀ (ps na : List String),
      scanMembers ignoreDirs imports aff ps na = scanMembersNoTest imports aff ps na := by
  intro ps
  induction ps with
  | nil => intro na; rfl
  | cons p ps ih =>
    intro na
    unfold scanMembers scanMembersNoTest
    rw [scanImporters_eq_noTest _ _ _ _
      (fun x hx => h x (get_subset_importers _ _ _ hx)), ih]

theorem closureLoop_eq_noTest (ignoreDirs : List String) (imports : ImportsMap)
    (h : ∀ x ∈ importers imports, isIgnored ignoreDirs x = false) :
    ∀ (fuel : Nat) (aff : List String),
      closureLoop ignoreDirs imports fuel aff = closureLoopNoTest imports fuel aff := by
  intro fuel
  induction fuel with
  | zero => intro aff; rfl
  | succ n ih =>
    intro aff
    have hr : round ignoreDirs imports aff = roundNoTest imports aff :=
      scanMembers_eq_noTest _ _ _ h _ _
    unfold closureLoop closureLoopNoTest
    rw [hr]
    simp only [ih]

theorem stagedWorld_run :
    main stagedWorld 2 = some { stdout := "proj/a\nproj/b\n", stderr := "", exitCode := 0 } := by
  decide

theorem noGoWorld_run :
    main noGoWorld 2 = some { stdout := "proj/a\nproj/b\n", stderr := "", exitCode := 0 } := by
  decide

theorem contribution_flatten (ignoreDirs : List String) (w : World) (repo I : String) :
    ∀ (calls : List (String × Option String)),
      (∀ call ∈ calls, call.2 = none) →
      (calls.map (contribution ignoreDirs w repo I)).flatten =
        ((calls.filter (fun c => !isIgnored ignoreDirs c.1)).map
          (fun c => List.replicate ((importList w repo c.1).count I) c.1)).flatten := by
  intro calls
  induction calls with
  | nil => intro _; rfl
  | cons c cs ih =>
    intro h
    have hc : c.2 = none := h c (List.mem_cons_self _ _)
    have ih2 := ih (fun call hcall => h call (List.mem_cons_of_mem _ hcall))
    rw [List.map_cons, List.flatten_cons, ih2]
    unfold contribution
    rw [hc]
    simp only []
    by_cases hi : isIgnored ignoreDirs c.1 = true
    · simp [List.filter_cons, hi]
    · simp [List.filter_cons, hi]

/-- C12: in a scan without errors the index entry of an import path I is, in
scan order, the import path of each scanned unit that matches no ignore
pattern, repeated once per occurrence of I in the import list of the unit; a
unit that matches a pattern is in no entry, and an import path that no
retained unit imports has the empty entry. -/
theorem index_entry_in_scan_order (ignoreDirs : List String) (w : World)
    (repo stderr I : String)
    (hfree : ∀ call ∈ w.forEachPackage,
      call.2 = none ∧ ∃ pkg, w.importPackage call.1 repo = .ok pkg) :
    (scanLoop ignoreDirs w repo stderr).imports.get I =
      ((w.forEachPackage.filter (fun c => !isIgnored ignoreDirs c.1)).map
        (fun c => List.replicate ((importList w repo c.1).count I) c.1)).flatten ∧
    (∀ c ∈ w.forEachPackage, isIgnored ignoreDirs c.1 = true →
      ∀ J, c.1 ∉ (scanLoop ignoreDirs w repo stderr).imports.get J) ∧
    ((∀ c ∈ w.forEachPackage, isIgnored ignoreDirs c.1 = false →
        I ∉ importList w repo c.1) →
      (scanLoop ignoreDirs w repo stderr).imports.get I = []) := by
  have hentry : ∀ J, (scanLoop ignoreDirs w repo stderr).imports.get J =
      ((w.forEachPackage.filter (fun c => !isIgnored ignoreDirs c.1)).map
        (fun c => List.replicate ((importList w repo c.1).count J) c.1)).flatten := by
    intro J
    unfold scanLoop
    rw [scanFold_get, contribution_flatten _ _ _ _ _ (fun call hc => (hfree call hc).1)]
    rfl
  refine ⟨hentry I, ?_, ?_⟩
  · intro c _ hi J hmem
    rw [hentry J] at hmem
    obtain ⟨l, hl, hx⟩ := List.mem_flatten.1 hmem
    obtain ⟨c2, hc2, rfl⟩ := List.mem_map.1 hl
    have hc2i := (List.mem_filter.1 hc2).2
    have heq : c.1 = c2.1 := (List.mem_replicate.1 hx).2
    rw [heq] at hi
    simp [hi] at hc2i
  · intro hnone
    rw [hentry I, List.eq_nil_iff_forall_not_mem]
    intro x hmem
    obtain ⟨l, hl, hx⟩ := List.mem_flatten.1 hmem
    obtain ⟨c2, hc2, rfl⟩ := List.mem_map.1 hl
    obtain ⟨hc2m, hc2i⟩ := List.mem_filter.1 hc2
    have hcount := (List.mem_replicate.1 hx).1
    have : I ∈ importList w repo c2.1 := List.count_pos_iff.1 (Nat.pos_of_ne_zero hcount)
    exact hnone c2 hc2m (by simpa using hc2i) this

/-- Witness of C12: the entry of `proj/a` in the scan of three units, one of
them under a checkout-staging directory. -/
theorem index_entry_in_scan_order_witness :
    (scanLoop [".checkout_git"] stagedWorld "/work" "").imports.get "proj/a" =
      ((stagedWorld.forEachPackage.filter (fun c => !isIgnored [".checkout_git"] c.1)).map
        (fun c => List.replicate ((importList stagedWorld "/work" c.1).count "proj/a")
          c.1)).flatten ∧
    (∀ c ∈ stagedWorld.forEachPackage, isIgnored [".checkout_git"] c.1 = true →
      ∀ J, c.1 ∉ (scanLoop [".checkout_git"] stagedWorld "/work" "").imports.get J) ∧
    ((∀ c ∈ stagedWorld.forEachPackage, isIgnored [".checkout_git"] c.1 = false →
        "proj/a" ∉ importList stagedWorld "/work" c.1) →
      (scanLoop [".checkout_git"] stagedWorld "/work" "").imports.get "proj/a" = []) :=
  index_entry_in_scan_order [".checkout_git"] stagedWorld "/work" "" "proj/a"
    (by
      intro call hcall
      have h3 : call = ("proj/a", none) ∨ call = ("proj/.checkout_git/dep", none) ∨
          call = ("proj/b", none) := by
        simpa [stagedWorld] using hcall
      rcases h3 with rfl | rfl | rfl
      · exact ⟨rfl, _, rfl⟩
      · exact ⟨rfl, _, rfl⟩
      · exact ⟨rfl, _, rfl⟩)

theorem stagedWorld_entry :
    (scanLoop [".checkout_git"] stagedWorld "/work" "").imports.get "proj/a" = ["proj/b"] := by
  decide

theorem affectedPackages_congr (w w2 : World) (fuel : Nat)
    (hflag : w2.ignoreDirsFlag = w.ignoreDirsFlag) (hargs : w2.args = w.args)
    (harg0 : w2.arg0 = w.arg0) (hrev : w2.gitRevParse = w.gitRevParse)
    (hdiff : w2.gitDiff = w.gitDiff) (hcwd : w2.getwd = w.getwd)
    (hseed : ∀ pats cwd files s, seedLoop pats w2 cwd files s = seedLoop pats w cwd files s)
    (hscan : ∀ pats repo s, w.gitRevParse = .ok repo →
      scanLoop pats w2 repo s = scanLoop pats w repo s) :
    affectedPackages w2 fuel = affectedPackages w fuel := by
  unfold affectedPackages
  simp only [changedFiles, gitRoot, hflag, hargs, harg0, hrev, hdiff, hcwd, hseed]
  rcases w.args with _ | ⟨commitRange, _ | ⟨a2, rest⟩⟩
  · rfl
  · cases hroot : w.gitRevParse with
    | error err => rfl
    | ok root =>
      simp only [hscan _ root _ hroot]
  · rfl

/-- C15: a scanned unit whose import reports "no Go files" leaves the scan
variables as they were, standard error included; the scan, the Affected
sequence and the whole run are those of the same scan without that unit. -/
theorem noGo_unit_is_skipped (w : World) (l1 l2 : List (String × Option String))
    (p : String) (hcalls : w.forEachPackage = l1 ++ (p, none) :: l2)
    (hnogo : ∀ repo, w.gitRevParse = .ok repo →
      ∃ msg, w.importPackage p repo = .error (.noGo msg)) :
    (∀ ignoreDirs repo st, w.gitRevParse = .ok repo →
      scanStep ignoreDirs w repo st (p, none) = st) ∧
    (∀ ignoreDirs repo stderr, w.gitRevParse = .ok repo →
      scanLoop ignoreDirs w repo stderr =
        scanLoop ignoreDirs { w with forEachPackage := l1 ++ l2 } repo stderr) ∧
    (∀ fuel, affectedPackages w fuel =
      affectedPackages { w with forEachPackage := l1 ++ l2 } fuel) ∧
    (∀ fuel, main w fuel = main { w with forEachPackage := l1 ++ l2 } fuel) := by
  have hstep : ∀ ignoreDirs repo st, w.gitRevParse = .ok repo →
      scanStep ignoreDirs w repo st (p, none) = st := by
    intro ignoreDirs repo st hrepo
    obtain ⟨msg, hmsg⟩ := hnogo repo hrepo
    unfold scanStep
    simp only [hmsg]
    split <;> rfl
  have hloop : ∀ ignoreDirs repo stderr, w.gitRevParse = .ok repo →
      scanLoop ignoreDirs w repo stderr =
        scanLoop ignoreDirs { w with forEachPackage := l1 ++ l2 } repo stderr := by
    intro ignoreDirs repo stderr hrepo
    have hsame : scanStep ignoreDirs { w with forEachPackage := l1 ++ l2 } repo =
        scanStep ignoreDirs w repo := rfl
    unfold scanLoop
    rw [hsame, hcalls]
    simp only [List.foldl_append, List.foldl_cons]
    rw [hstep ignoreDirs repo _ hrepo]
  have haff : ∀ fuel, affectedPackages w fuel =
      affectedPackages { w with forEachPackage := l1 ++ l2 } fuel := by
    intro fuel
    exact (affectedPackages_congr w { w with forEachPackage := l1 ++ l2 } fuel rfl rfl rfl rfl
      rfl rfl (fun _ _ _ _ => rfl) (fun pats repo s hrepo => (hloop pats repo s hrepo).symm)).symm
  refine ⟨hstep, hloop, haff, ?_⟩
  intro fuel
  unfold main
  rw [haff fuel]

/-- Witness of C15: the unit `proj/docs` has no Go source files. -/
theorem noGo_unit_is_skipped_witness :
    (∀ ignoreDirs repo st, noGoWorld.gitRevParse = .ok repo →
      scanStep ignoreDirs noGoWorld repo st ("proj/docs", none) = st) ∧
    (∀ ignoreDirs repo stderr, noGoWorld.gitRevParse = .ok repo →
      scanLoop ignoreDirs noGoWorld repo stderr =
        scanLoop ignoreDirs
          { noGoWorld with forEachPackage := [("proj/a", none)] ++ [("proj/b", none)] }
          repo stderr) ∧
    (∀ fuel, affectedPackages noGoWorld fuel =
      affectedPackages
        { noGoWorld with forEachPackage := [("proj/a", none)] ++ [("proj/b", none)] } fuel) ∧
    (∀ fuel, main noGoWorld fuel =
      main { noGoWorld with forEachPackage := [("proj/a", none)] ++ [("proj/b", none)] }
        fuel) :=
  noGo_unit_is_skipped noGoWorld [("proj/a", none)] [("proj/b", none)] "proj/docs" rfl
    (fun _ _ => ⟨_, rfl⟩)

/-- C18: every import path the scan stores in an index entry matches no ignore
pattern, so on the index the scan builds under the same patterns the closure
loop and the closure loop without its test on importers compute the same
thing, for every seed sequence and every fuel. -/
theorem closure_test_never_fires (ignoreDirs : List String) (w : World)
    (repo stderr : String) (seeds : List String) (fuel : Nat) :
    (∀ p, ∀ x ∈ (scanLoop ignoreDirs w repo stderr).imports.get p,
      isIgnored ignoreDirs x = false) ∧
    closureLoop ignoreDirs (scanLoop ignoreDirs w repo stderr).imports fuel seeds =
      closureLoopNoTest (scanLoop ignoreDirs w repo stderr).imports fuel seeds := by
  have hval : ∀ x ∈ importers (scanLoop ignoreDirs w repo stderr).imports,
      isIgnored ignoreDirs x = false := by
    intro x hx
    unfold scanLoop at hx
    rcases scanFold_importers _ _ _ _ _ _ hx with h | h
    · simp [importers] at h
    · exact h
  exact ⟨fun p x hx => hval x (get_subset_importers _ _ _ hx),
    closureLoop_eq_noTest _ _ hval fuel seeds⟩

/-! ## First occurrences -/

theorem keepFirst_example :
    keepFirst ["b", "a", "b", "c", "a", "b"] = ["b", "a", "c"] := by
  decide

theorem mem_keepFirst (l : List String) (x : String) : x ∈ keepFirst l ↔ x ∈ l := by
  induction l with
  | nil => simp [keepFirst]
  | cons a l ih =>
    simp only [keepFirst, List.mem_cons, List.mem_filter, ih, bne_iff_ne, ne_eq]
    by_cases h : x = a
    · simp [h]
    · simp [h]

theorem keepFirst_nodup (l : List String) : (keepFirst l).Nodup := by
  induction l with
  | nil => simp [keepFirst]
  | cons a l ih =>
    simp only [keepFirst, List.nodup_cons, List.mem_filter, bne_iff_ne, ne_eq, not_true,
      and_false, not_false_eq_true, true_and]
    exact ih.filter _

theorem filter_filter_not_mem (l seen : List String) (x : String) :
    ((l.filter (fun y => y != x)).filter (fun y => decide (y ∉ seen))) =
      l.filter (fun y => decide (y ∉ x :: seen)) := by
  rw [List.filter_filter]
  apply List.filter_congr
  intro y _
  by_cases h : y = x
  · simp [h]
  · simp [h]

theorem keepFirst_append (a b : List String) :
    keepFirst (a ++ b) = keepFirst a ++ (keepFirst b).filter (fun y => decide (y ∉ a)) := by
  induction a with
  | nil => simp [keepFirst]
  | cons x a ih =>
    have h1 : keepFirst (x :: a ++ b) =
        x :: (keepFirst (a ++ b)).filter (fun y => y != x) := rfl
    have h2 : keepFirst (x :: a) = x :: (keepFirst a).filter (fun y => y != x) := rfl
    rw [h1, h2, ih, List.filter_append, List.cons_append]
    congr 2
    rw [List.filter_filter]
    apply List.filter_congr
    intro y _
    by_cases h : y = x
    · simp [h]
    · simp [h]

theorem filter_not_mem_of_mem (l seen : List String) (x : String) (hx : x ∈ seen) :
    ((l.filter (fun y => y != x)).filter (fun y => decide (y ∉ seen))) =
      l.filter (fun y => decide (y ∉ seen)) := by
  rw [List.filter_filter]
  apply List.filter_congr
  intro y _
  by_cases h : y = x
  · simp [h, hx]
  · simp [h]

theorem scanImporters_eq (ignoreDirs aff : List String) :
    ∀ (imps na : List String),
      scanImporters ignoreDirs aff imps na =
        na ++ (keepFirst (imps.filter
          (fun q => !isIgnored ignoreDirs q && decide (q ∉ aff)))).filter
            (fun y => decide (y ∉ na)) := by
  intro imps
  induction imps with
  | nil => intro na; simp [scanImporters, keepFirst]
  | cons imp rest ih =>
    intro na
    unfold scanImporters
    by_cases hi : isIgnored ignoreDirs imp = true
    · rw [if_pos hi, ih]
      simp [List.filter_cons, hi]
    · rw [if_neg hi]
      by_cases hf : found aff na imp = true
      · rw [if_pos hf, ih]
        rcases (found_iff _ _ _).1 hf with ha | hn
        · simp [List.filter_cons, hi, ha]
        · by_cases ha : imp ∈ aff
          · simp [List.filter_cons, hi, ha]
          · have hok : (!isIgnored ignoreDirs imp && decide (imp ∉ aff)) = true := by
              simp [hi, ha]
            rw [List.filter_cons, if_pos hok, keepFirst, List.filter_cons]
            have hdrop : decide (imp ∉ na) = false := by simp [hn]
            rw [hdrop]
            simp only [Bool.false_eq_true, if_false]
            rw [filter_not_mem_of_mem _ _ _ hn]
      · rw [if_neg hf, ih]
        obtain ⟨ha, hn⟩ := (found_eq_false_iff _ _ _).1 (by simpa using hf)
        have hok : (!isIgnored ignoreDirs imp && decide (imp ∉ aff)) = true := by
          simp [hi, ha]
        rw [List.filter_cons, if_pos hok, keepFirst, List.filter_cons]
        have hkeep : decide (imp ∉ na) = true := by simp [hn]
        rw [hkeep]
        simp only [if_true]
        rw [filter_filter_not_mem, List.append_assoc, List.singleton_append]
        congr 2
        apply List.filter_congr
        intro y _
        simp [List.mem_append, not_or, and_comm]

theorem scanMembers_eq (ignoreDirs : List String) (imports : ImportsMap) (aff : List String) :
    ∀ (ps na : List String),
      scanMembers ignoreDirs imports aff ps na =
        na ++ (keepFirst (((ps.map imports.get).flatten).filter
          (fun q => !isIgnored ignoreDirs q && decide (q ∉ aff)))).filter
            (fun y => decide (y ∉ na)) := by
  intro ps
  induction ps with
  | nil => intro na; simp [scanMembers, keepFirst]
  | cons p ps ih =>
    intro na
    unfold scanMembers
    rw [ih, scanImporters_eq, List.map_cons, List.flatten_cons, List.filter_append,
      keepFirst_append, List.filter_append, List.append_assoc]
    congr 2
    rw [List.filter_filter]
    apply List.filter_congr
    intro y _
    simp only [List.mem_append, List.mem_filter, mem_keepFirst, decide_eq_true_eq,
      Bool.and_eq_true, Bool.not_eq_true', not_or, not_and, Bool.decide_eq_true]
    by_cases hy : y ∈ na
    · simp [hy]
    · simp [hy]

theorem filter_not_mem_nil (l : List String) :
    l.filter (fun y => decide (y ∉ ([] : List String))) = l := by
  rw [List.filter_eq_self]
  intro y _
  simp

theorem seedStep_none (ignoreDirs : List String) (w : World) (cwd : String)
    (st : SeedState) (f : String) (h : seedCandidate ignoreDirs w cwd f = none) :
    (seedStep ignoreDirs w cwd st f).pkgSeen = st.pkgSeen ∧
    (seedStep ignoreDirs w cwd st f).modifiedPackages = st.modifiedPackages := by
  unfold seedCandidate at h
  unfold seedStep
  by_cases hi : isIgnored ignoreDirs f = true
  · rw [if_pos hi]
    exact ⟨rfl, rfl⟩
  · rw [if_neg hi] at h ⊢
    cases hc : w.containingPackage cwd f with
    | error err => exact ⟨rfl, rfl⟩
    | ok pkg =>
      rw [hc] at h
      simp only [] at h ⊢
      by_cases hg : pkg.Goroot = true
      · rw [if_pos hg]
        exact ⟨rfl, rfl⟩
      · rw [if_neg hg] at h
        cases h

theorem seedStep_some (ignoreDirs : List String) (w : World) (cwd : String)
    (st : SeedState) (f ip : String) (h : seedCandidate ignoreDirs w cwd f = some ip) :
    (ip ∈ st.pkgSeen → seedStep ignoreDirs w cwd st f = st) ∧
    (ip ∉ st.pkgSeen →
      (seedStep ignoreDirs w cwd st f).pkgSeen = ip :: st.pkgSeen ∧
      seedPaths (seedStep ignoreDirs w cwd st f).modifiedPackages =
        seedPaths st.modifiedPackages ++ [ip]) := by
  unfold seedCandidate at h
  unfold seedStep
  by_cases hi : isIgnored ignoreDirs f = true
  · rw [if_pos hi] at h
    cases h
  · rw [if_neg hi] at h ⊢
    cases hc : w.containingPackage cwd f with
    | error err =>
      rw [hc] at h
      cases h
    | ok pkg =>
      rw [hc] at h
      simp only [] at h ⊢
      by_cases hg : pkg.Goroot = true
      · rw [if_pos hg] at h
        cases h
      · rw [if_neg hg] at h ⊢
        have hip : pkg.ImportPath = ip := Option.some.inj h
        rw [hip]
        constructor
        · intro hmem
          have : st.pkgSeen.contains ip = true := by simpa using hmem
          rw [if_pos this]
        · intro hmem
          have : ¬ st.pkgSeen.contains ip = true := by simpa using hmem
          rw [if_neg this]
          refine ⟨rfl, ?_⟩
          simp [seedPaths, hip]

theorem seedFold_paths (ignoreDirs : List String) (w : World) (cwd : String) :
    ∀ (files : List String) (st : SeedState),
      seedPaths (files.foldl (seedStep ignoreDirs w cwd) st).modifiedPackages =
        seedPaths st.modifiedPackages ++
          (keepFirst (files.filterMap (seedCandidate ignoreDirs w cwd))).filter
            (fun y => decide (y ∉ st.pkgSeen)) := by
  intro files
  induction files with
  | nil => intro st; simp [keepFirst]
  | cons f fs ih =>
    intro st
    rw [List.foldl_cons, ih]
    cases hc : seedCandidate ignoreDirs w cwd f with
    | none =>
      obtain ⟨h1, h2⟩ := seedStep_none _ _ _ st f hc
      rw [h1, h2, List.filterMap_cons, hc]
    | some ip =>
      obtain ⟨hin, hout⟩ := seedStep_some _ _ _ st f ip hc
      rw [List.filterMap_cons, hc]
      simp only []
      by_cases hmem : ip ∈ st.pkgSeen
      · rw [hin hmem, keepFirst, List.filter_cons]
        have hdrop : decide (ip ∉ st.pkgSeen) = false := by simp [hmem]
        rw [hdrop]
        simp only [Bool.false_eq_true, if_false]
        rw [filter_not_mem_of_mem _ _ _ hmem]
      · obtain ⟨h1, h2⟩ := hout hmem
        rw [h1, h2, keepFirst, List.filter_cons]
        have hkeep : decide (ip ∉ st.pkgSeen) = true := by simp [hmem]
        rw [hkeep]
        simp only [if_true]
        rw [filter_filter_not_mem, List.append_assoc, List.singleton_append]

/-- C13: the additions a round stages are the index entries of the members of
Affected at the start of the round, one after the other in their recorded
order, without the import paths that match an ignore pattern or are in
Affected already, and with only the first occurrence of what remains; the
loop appends exactly these, or stops when there are none. -/
theorem round_additions_in_order (ignoreDirs : List String) (imports : ImportsMap)
    (affected : List String) (fuel : Nat) :
    round ignoreDirs imports affected =
      keepFirst (((affected.map imports.get).flatten).filter
        (fun q => !isIgnored ignoreDirs q && decide (q ∉ affected))) ∧
    closureLoop ignoreDirs imports (fuel + 1) affected =
      (if roundCandidates ignoreDirs imports affected = [] then some affected
       else closureLoop ignoreDirs imports fuel
        (affected ++ keepFirst (roundCandidates ignoreDirs imports affected))) := by
  have hr : round ignoreDirs imports affected =
      keepFirst (roundCandidates ignoreDirs imports affected) := by
    unfold round roundCandidates
    rw [scanMembers_eq, List.nil_append, filter_not_mem_nil]
  refine ⟨hr, ?_⟩
  rw [closureLoop_succ, hr]
  have hnil : keepFirst (roundCandidates ignoreDirs imports affected) = [] ↔
      roundCandidates ignoreDirs imports affected = [] := by
    constructor
    · intro h
      rw [List.eq_nil_iff_forall_not_mem] at h ⊢
      intro x hx
      exact h x ((mem_keepFirst _ _).2 hx)
    · intro h
      rw [h]
      rfl
  by_cases hc : roundCandidates ignoreDirs imports affected = []
  · rw [if_pos hc, if_pos (hnil.2 hc)]
  · rw [if_neg hc, if_neg (fun h => hc (hnil.1 h))]

/-- C14: the seed sequence is, in file order and keeping the first occurrence
of each import path, the import paths of the changed files that match no
ignore pattern, resolve, and resolve to a unit that is not standard; a file
whose resolution fails changes nothing: the seeds are those of the list of
files without it. -/
theorem seeds_in_file_order (ignoreDirs : List String) (w : World) (cwd : String)
    (files : List String) (stderr : String) :
    seedPaths (seedLoop ignoreDirs w cwd files stderr).modifiedPackages =
      keepFirst (files.filterMap (fun f =>
        if isIgnored ignoreDirs f then none
        else
          match w.containingPackage cwd f with
          | .error _ => none
          | .ok pkg => if pkg.Goroot then none else some pkg.ImportPath)) ∧
    (∀ l1 l2 f err, files = l1 ++ f :: l2 → w.containingPackage cwd f = .error err →
      seedPaths (seedLoop ignoreDirs w cwd files stderr).modifiedPackages =
        seedPaths (seedLoop ignoreDirs w cwd (l1 ++ l2) stderr).modifiedPackages) := by
  have hall : ∀ fs, seedPaths (seedLoop ignoreDirs w cwd fs stderr).modifiedPackages =
      keepFirst (fs.filterMap (seedCandidate ignoreDirs w cwd)) := by
    intro fs
    unfold seedLoop
    rw [seedFold_paths]
    simp only [seedPaths, List.map_nil, List.nil_append]
    exact filter_not_mem_nil _
  refine ⟨hall files, ?_⟩
  intro l1 l2 f err hfiles herr
  rw [hall, hall, hfiles]
  have hnone : seedCandidate ignoreDirs w cwd f = none := by
    unfold seedCandidate
    rw [herr]
    split <;> rfl
  rw [List.filterMap_append, List.filterMap_append, List.filterMap_cons, hnone]

theorem mixedWorld_seeds :
    seedPaths (seedLoop [".checkout_git"] mixedWorld "/work"
      ["/work/.checkout_git/x.go", "/go/src/fmt/print.go", "/tmp/y.go",
        "/work/src/proj/a/a.go", "/work/src/proj/a/b.go"] "").modifiedPackages =
      ["proj/a"] := by
  decide

/-! ## Rounds and distances -/

theorem affectedAfter_succ (ignoreDirs : List String) (imports : ImportsMap) :
    ∀ (k : Nat) (aff : List String),
      affectedAfter ignoreDirs imports (k + 1) aff =
        affectedAfter ignoreDirs imports k aff ++
          round ignoreDirs imports (affectedAfter ignoreDirs imports k aff) := by
  intro k
  induction k with
  | zero => intro aff; rfl
  | succ n ih =>
    intro aff
    rw [affectedAfter, ih]
    rfl

theorem chain_snoc {R : String → String → Prop} :
    ∀ (l : List String) (a b : String),
      List.Chain R a (l ++ [b]) ↔
        List.Chain R a l ∧ ∀ z, (a :: l).getLast? = some z → R z b := by
  intro l
  induction l with
  | nil =>
    intro a b
    simp [List.chain_cons]
  | cons c l ih =>
    intro a b
    rw [List.cons_append, List.chain_cons, ih, List.chain_cons, List.getLast?_cons_cons,
      and_assoc]

theorem getLast?_snoc (l : List String) (a b : String) :
    (a :: (l ++ [b])).getLast? = some b := by
  rw [← List.cons_append, List.getLast?_append]
  simp

theorem chainOfLength_zero (ignoreDirs : List String) (imports : ImportsMap)
    (seeds : List String) (q : String) :
    ChainOfLength ignoreDirs imports seeds 0 q ↔ q ∈ seeds := by
  unfold ChainOfLength
  constructor
  · rintro ⟨p0, hp0, ps, _, hlen, hlast⟩
    have : ps = [] := List.length_eq_zero.1 hlen
    subst this
    have : p0 = q := by simpa using hlast
    exact this ▸ hp0
  · intro hq
    exact ⟨q, hq, [], List.Chain.nil, rfl, rfl⟩

theorem chainOfLength_succ (ignoreDirs : List String) (imports : ImportsMap)
    (seeds : List String) (n : Nat) (q : String) :
    ChainOfLength ignoreDirs imports seeds (n + 1) q ↔
      ∃ p, ChainOfLength ignoreDirs imports seeds n p ∧
        q ∈ imports.get p ∧ isIgnored ignoreDirs q = false := by
  unfold ChainOfLength
  constructor
  · rintro ⟨p0, hp0, ps, hc, hlen, hlast⟩
    rcases List.eq_nil_or_concat ps with rfl | ⟨L, b, rfl⟩
    · simp at hlen
    · rw [List.concat_eq_append] at hc hlen hlast
      rw [chain_snoc] at hc
      rw [getLast?_snoc] at hlast
      have hb : b = q := Option.some.inj hlast
      subst hb
      have hne : (p0 :: L) ≠ [] := List.cons_ne_nil _ _
      refine ⟨(p0 :: L).getLast hne, ⟨p0, hp0, L, hc.1, ?_, ?_⟩, ?_⟩
      · simpa using hlen
      · exact List.getLast?_eq_getLast _ hne
      · exact hc.2 _ (List.getLast?_eq_getLast _ hne)
  · rintro ⟨p, ⟨p0, hp0, ps, hc, hlen, hlast⟩, hedge⟩
    refine ⟨p0, hp0, ps ++ [q], ?_, ?_, getLast?_snoc _ _ _⟩
    · rw [chain_snoc]
      refine ⟨hc, ?_⟩
      intro z hz
      rw [hlast] at hz
      rw [← Option.some.inj hz]
      exact hedge
    · simp [hlen]

theorem mem_affectedAfter (ignoreDirs : List String) (imports : ImportsMap)
    (seeds : List String) :
    ∀ (k : Nat) (q : String),
      q ∈ affectedAfter ignoreDirs imports k seeds ↔
        ∃ j, j ≤ k ∧ ChainOfLength ignoreDirs imports seeds j q := by
  intro k
  induction k with
  | zero =>
    intro q
    constructor
    · intro hq
      exact ⟨0, le_refl _, (chainOfLength_zero _ _ _ _).2 hq⟩
    · rintro ⟨j, hj, hc⟩
      have : j = 0 := by omega
      subst this
      exact (chainOfLength_zero _ _ _ _).1 hc
  | succ n ih =>
    intro q
    rw [affectedAfter_succ, List.mem_append, mem_round]
    constructor
    · rintro (hq | ⟨⟨p, hp, hqp⟩, hi, _⟩)
      · obtain ⟨j, hj, hc⟩ := (ih q).1 hq
        exact ⟨j, by omega, hc⟩
      · obtain ⟨j, hj, hc⟩ := (ih p).1 hp
        exact ⟨j + 1, by omega, (chainOfLength_succ _ _ _ _ _).2 ⟨p, hc, hqp, hi⟩⟩
    · rintro ⟨j, hj, hc⟩
      by_cases hq : q ∈ affectedAfter ignoreDirs imports n seeds
      · exact Or.inl hq
      · right
        by_cases hjn : j ≤ n
        · exact absurd ((ih q).2 ⟨j, hjn, hc⟩) hq
        · have : j = n + 1 := by omega
          subst this
          obtain ⟨p, hp, hqp, hi⟩ := (chainOfLength_succ _ _ _ _ _).1 hc
          exact ⟨⟨p, (ih p).2 ⟨n, le_refl _, hp⟩, hqp⟩, hi, hq⟩

theorem mem_round_affectedAfter (ignoreDirs : List String) (imports : ImportsMap)
    (seeds : List String) (k : Nat) (q : String) :
    q ∈ round ignoreDirs imports (affectedAfter ignoreDirs imports k seeds) ↔
      ShortestChain ignoreDirs imports seeds (k + 1) q := by
  rw [mem_round]
  unfold ShortestChain
  constructor
  · rintro ⟨⟨p, hp, hqp⟩, hi, hq⟩
    obtain ⟨j, hj, hc⟩ := (mem_affectedAfter _ _ _ k p).1 hp
    have hshort : ∀ i, i < k + 1 → ¬ ChainOfLength ignoreDirs imports seeds i q := by
      intro i hik hci
      exact hq ((mem_affectedAfter _ _ _ k q).2 ⟨i, by omega, hci⟩)
    have hcq := (chainOfLength_succ _ _ _ _ _).2 ⟨p, hc, hqp, hi⟩
    by_cases hjk : j = k
    · subst hjk
      exact ⟨hcq, hshort⟩
    · exact absurd hcq (hshort (j + 1) (by omega))
  · rintro ⟨hc, hshort⟩
    obtain ⟨p, hp, hqp, hi⟩ := (chainOfLength_succ _ _ _ _ _).1 hc
    refine ⟨⟨p, (mem_affectedAfter _ _ _ k p).2 ⟨k, le_refl _, hp⟩, hqp⟩, hi, ?_⟩
    intro hq
    obtain ⟨j, hj, hcj⟩ := (mem_affectedAfter _ _ _ k q).1 hq
    exact hshort j (by omega) hcj

theorem closureLoop_rounds (ignoreDirs : List String) (imports : ImportsMap) :
    ∀ (fuel : Nat) (aff r : List String),
      closureLoop ignoreDirs imports fuel aff = some r →
      ∃ j, r = affectedAfter ignoreDirs imports j aff ∧
        round ignoreDirs imports (affectedAfter ignoreDirs imports j aff) = [] ∧
        (∀ i, i < j → round ignoreDirs imports (affectedAfter ignoreDirs imports i aff) ≠ []) ∧
        closureLoop ignoreDirs imports (j + 1) aff = some r ∧
        closureLoop ignoreDirs imports j aff = none := by
  intro fuel
  induction fuel with
  | zero => intro aff r h; simp [closureLoop] at h
  | succ n ih =>
    intro aff r h
    rw [closureLoop_succ] at h
    by_cases hr : round ignoreDirs imports aff = []
    · rw [if_pos hr] at h
      cases h
      exact ⟨0, rfl, hr, fun i hi => by omega, closureLoop_fixed _ _ 0 _ hr, rfl⟩
    · rw [if_neg hr] at h
      obtain ⟨j, h1, h2, h3, h4, h5⟩ := ih _ r h
      refine ⟨j + 1, h1, h2, ?_, ?_, ?_⟩
      · intro i hi
        cases i with
        | zero => exact hr
        | succ i => exact h3 i (by omega)
      · rw [closureLoop_succ, if_neg hr]
        exact h4
      · rw [closureLoop_succ, if_neg hr]
        exact h5

theorem closed_of_chainOfLength (ignoreDirs : List String) (imports : ImportsMap)
    (seeds r : List String) (hfix : round ignoreDirs imports r = [])
    (hseeds : ∀ s ∈ seeds, s ∈ r) :
    ∀ (n : Nat) (q : String), ChainOfLength ignoreDirs imports seeds n q → q ∈ r := by
  intro n
  induction n with
  | zero =>
    intro q hq
    exact hseeds q ((chainOfLength_zero _ _ _ _).1 hq)
  | succ n ih =>
    intro q hq
    obtain ⟨p, hp, hqp, hi⟩ := (chainOfLength_succ _ _ _ _ _).1 hq
    exact (round_eq_nil_iff _ _ _).1 hfix p (ih p hp) q hqp hi

/-- C17: the units a round appends are those whose shortest chain of importer
edges from a seed has the round's number as length (round k+1 is the round run
on the value after k rounds); the loop runs R rounds that add something and
one that adds nothing, where R bounds every shortest distance and, when
positive, is the shortest distance of some unit; with b importing a and c
importing b, seed a: round 1 adds b, round 2 adds c, Affected is a, b, c. -/
theorem rounds_are_distance_layers (ignoreDirs : List String) (imports : ImportsMap)
    (seeds : List String) :
    (∀ k q, q ∈ round ignoreDirs imports (affectedAfter ignoreDirs imports k seeds) ↔
      ShortestChain ignoreDirs imports seeds (k + 1) q) ∧
    (∃ R, closureLoop ignoreDirs imports (R + 1) seeds =
        some (affectedAfter ignoreDirs imports R seeds) ∧
      closureLoop ignoreDirs imports R seeds = none ∧
      (∀ k, k < R →
        round ignoreDirs imports (affectedAfter ignoreDirs imports k seeds) ≠ []) ∧
      round ignoreDirs imports (affectedAfter ignoreDirs imports R seeds) = [] ∧
      (∀ k q, ShortestChain ignoreDirs imports seeds k q → k ≤ R) ∧
      (R = 0 ∨ ∃ q, ShortestChain ignoreDirs imports seeds R q)) ∧
    (round [] [("a", ["b"]), ("b", ["c"])] ["a"] = ["b"] ∧
      round [] [("a", ["b"]), ("b", ["c"])] ["a", "b"] = ["c"] ∧
      closureLoop [] [("a", ["b"]), ("b", ["c"])] 3 ["a"] = some ["a", "b", "c"]) := by
  refine ⟨mem_round_affectedAfter ignoreDirs imports seeds, ?_, by decide, by decide,
    by decide⟩
  obtain ⟨r, hr⟩ := closureLoop_total ignoreDirs imports seeds
  obtain ⟨R, h1, h2, h3, h4, h5⟩ := closureLoop_rounds _ _ _ _ _ hr
  subst h1
  refine ⟨R, h4, h5, h3, h2, ?_, ?_⟩
  · intro k q hs
    by_contra hk
    have hq : q ∈ affectedAfter ignoreDirs imports R seeds :=
      closed_of_chainOfLength _ _ seeds _ h2
        (fun s hs => (mem_affectedAfter _ _ _ R s).2
          ⟨0, Nat.zero_le _, (chainOfLength_zero _ _ _ _).2 hs⟩) k q hs.1
    obtain ⟨j, hj, hc⟩ := (mem_affectedAfter _ _ _ R q).1 hq
    exact hs.2 j (by omega) hc
  · cases R with
    | zero => exact Or.inl rfl
    | succ R =>
      right
      obtain ⟨q, hq⟩ := List.exists_mem_of_ne_nil _ (h3 R (by omega))
      exact ⟨q, (mem_round_affectedAfter _ _ _ R q).1 hq⟩

end Affected
